import Mathlib

/-!
Verification of `collinear_game_analysis.py`.

The program decides, for an m×n grid of points, whether the first player
wins the "collinear erasure" game: a move picks a line (enumerated as a
bitmask of grid points) having at least one still-present point, removes
the present points of that line, and the player without a legal move loses.

Shallow embedding conventions:
* Python `int` board dimensions are `Int`; bitmasks and states are `Nat`.
* Python's unbounded `while` loop in the line walk and the unbounded
  recursion in `win` are embedded with an explicit fuel parameter; fuel
  adequacy/irrelevance is proved separately.
* The Python `set` of lines is embedded as first-occurrence-order
  deduplication of the emission sequence; the returned list order of a
  Python `set` is unspecified, membership is what matters.
* The memo `dict` is an association list with unique keys (an invariant
  that is proved, matching dict semantics).
* Python raises `ValueError` on `1 << k` for `k < 0`; the embedding of
  `has_forced_win` returns `Except String _` to capture that.
-/

/-- Python `range(a, b)` over integers. -/
def intRange (a b : Int) : List Int :=
  (List.range (b - a).toNat).map fun (i : Nat) => a + (i : Int)

/-- `in_bounds` from `enumerate_lines_bitmask`: `0 <= x < m and 0 <= y < n`. -/
def in_bounds (m n x y : Int) : Bool :=
  decide (0 ≤ x ∧ x < m ∧ 0 ≤ y ∧ y < n)

/-- `Board.xy2id`: `id = x * n + y` (row-major). -/
def xy2id (n x y : Int) : Nat :=
  (x * n + y).toNat

/-- Fuelled helper for `bit_count` (`fuel ≥ x` always suffices, since the
argument at least halves at every step). -/
def bitCountAux : Nat → Nat → Nat
  | 0, _ => 0
  | fuel + 1, x => if x = 0 then 0 else bitCountAux fuel (x / 2) + x % 2

/-- Number of set bits of a natural number (Python `int.bit_count`). -/
def bit_count (x : Nat) : Nat :=
  bitCountAux x x

/-- The list `dirs` built by `enumerate_lines_bitmask`: primitive direction
vectors `(dx, dy)` with `dy ∈ range(-(n-1), n)` (outer loop),
`dx ∈ range(-(m-1), m)` (inner loop), `(dx, dy) ≠ (0, 0)`,
`gcd (|dx|) (|dy|) = 1`, and sign-canonicalized
(`dx > 0`, or `dx = 0 ∧ dy > 0`). -/
def dirs (m n : Int) : List (Int × Int) :=
  (intRange (-(n - 1)) n).flatMap fun dy =>
    (intRange (-(m - 1)) m).filterMap fun dx =>
      if dx = 0 ∧ dy = 0 then none
      else if Int.gcd dx dy ≠ 1 then none
      else if dx < 0 ∨ (dx = 0 ∧ dy < 0) then none
      else some (dx, dy)

/-- The `while in_bounds` walk of `enumerate_lines_bitmask`, with explicit
fuel: starting at `(x, y)` and stepping by `(dx, dy)`, OR each visited
point's bit into the mask and count the steps. Returns `(mask, length)`. -/
def walk (m n dx dy : Int) : Nat → Int → Int → Nat × Nat
  | 0, _, _ => (0, 0)
  | fuel + 1, x, y =>
    if in_bounds m n x y then
      let r := walk m n dx dy fuel (x + dx) (y + dy)
      (r.1 ||| (1 <<< xy2id n x y), r.2 + 1)
    else (0, 0)

/-- Fuel that always suffices for `walk` with a canonical direction. -/
def walkFuel (m n : Int) : Nat :=
  (m + n).toNat + 1

/-- The sequence of `(mask, length)` pairs emitted by the loops of
`enumerate_lines_bitmask` (direction, then `x0 ∈ range(m)`, then
`y0 ∈ range(n)`), where `(x0, y0)` is kept only when its predecessor
`(x0 - dx, y0 - dy)` is out of bounds, and the walked mask is kept only
when its length is at least 2. -/
def line_candidates (m n : Int) : List Nat :=
  (dirs m n).flatMap fun d =>
    (intRange 0 m).flatMap fun x0 =>
      (intRange 0 n).filterMap fun y0 =>
        if in_bounds m n (x0 - d.1) (y0 - d.2) then none
        else
          let w := walk m n d.1 d.2 (walkFuel m n) x0 y0
          if 2 ≤ w.2 then some w.1 else none

/-- Insertion into the Python `set` of lines: keep first occurrence only. -/
def insertNew (l : List Nat) (x : Nat) : List Nat :=
  if x ∈ l then l else l ++ [x]

/-- `Board.enumerate_lines_bitmask`: the distinct line masks of the grid
(the emission sequence with duplicates suppressed). -/
def enumerate_lines_bitmask (m n : Int) : List Nat :=
  (line_candidates m n).foldl insertNew []

namespace Board

/-- `Board.full_mask` for non-negative `m*n`: `(1 << (m*n)) - 1`. -/
def full_mask (m n : Int) : Nat :=
  (1 <<< (m * n).toNat) - 1

/-- Stable insertion of `a` into a list sorted by descending `bit_count`:
`a` goes in front of the first element whose population count is not
larger (so elements with equal counts keep their relative order). -/
def insertDesc (a : Nat) : List Nat → List Nat
  | [] => [a]
  | b :: bs => if bit_count b ≤ bit_count a then a :: b :: bs else b :: insertDesc a bs

/-- Stable sort by descending population count (Python's
`sort(key=int.bit_count, reverse=True)`). -/
def sortDesc (l : List Nat) : List Nat :=
  l.foldr insertDesc []

/-- `Board.lines` after `__init__`: the enumerated lines sorted by
descending population count. -/
def lines (m n : Int) : List Nat :=
  sortDesc (enumerate_lines_bitmask m n)

end Board

/-- One pass of the `for line in lines` loop inside `win`, at a fixed
`state`: skip lines with `(state & line) == 0`; otherwise evaluate the
successor `state & (FULL ^ line)` with `eval` (threading the memo); on the
first losing successor memoize `True` and return, and if the loop ends
memoize `False`. -/
def winLoop (eval : List (Nat × Bool) → Nat → Bool × List (Nat × Bool))
    (FULL state : Nat) : List Nat → List (Nat × Bool) → Bool × List (Nat × Bool)
  | [], memo => (false, (state, false) :: memo)
  | l :: ls, memo =>
    if state &&& l = 0 then winLoop eval FULL state ls memo
    else
      let r := eval memo (state &&& (FULL ^^^ l))
      if r.1 then winLoop eval FULL state ls r.2
      else (true, (state, true) :: r.2)

/-- The recursive procedure `win` of `has_forced_win`, with explicit fuel
and the memo dict threaded as an association list: `win(0)` is `False`,
a memoized state returns its stored verdict, and otherwise the move loop
runs over `lines`. Returns the verdict and the updated memo. -/
def win (lines : List Nat) (FULL : Nat) :
    Nat → List (Nat × Bool) → Nat → Bool × List (Nat × Bool)
  | 0, memo, _ => (false, memo)
  | fuel + 1, memo, state =>
    if state = 0 then (false, memo)
    else
      match memo.lookup state with
      | some b => (b, memo)
      | none => winLoop (win lines FULL fuel) FULL state lines memo

/-- `has_forced_win m n`: build the board (raising Python's
`ValueError: negative shift count` when `m*n < 0`), then run `win` from
the full state with an empty memo; the program reports the boolean verdict
and `len(memo)` (the "states computed" diagnostic). -/
def has_forced_win (m n : Int) : Except String (Bool × Nat) :=
  if m * n < 0 then .error "negative shift count"
  else
    let FULL := Board.full_mask m n
    let r := win (Board.lines m n) FULL (FULL + 1) [] FULL
    .ok (r.1, r.2.length)

/-- The memo-free value semantics of `win`: the pure game value computed by
the same recursion without the memo dict. -/
def winPure (lines : List Nat) (FULL : Nat) : Nat → Nat → Bool
  | 0, _ => false
  | fuel + 1, state =>
    if state = 0 then false
    else lines.any fun l =>
      decide (state &&& l ≠ 0) && ! winPure lines FULL fuel (state &&& (FULL ^^^ l))

/-! ### Population count: basic theory -/

theorem bitCountAux_zero (f : Nat) : bitCountAux f 0 = 0 := by
  cases f <;> simp [bitCountAux]

theorem bitCountAux_congr : ∀ f g x, x ≤ f → x ≤ g → bitCountAux f x = bitCountAux g x := by
  intro f
  induction f with
  | zero =>
    intro g x hf _
    have hx : x = 0 := Nat.le_zero.mp hf
    subst hx
    rw [bitCountAux_zero, bitCountAux_zero]
  | succ f ih =>
    intro g x hf hg
    by_cases hx : x = 0
    · subst hx; rw [bitCountAux_zero, bitCountAux_zero]
    · cases g with
      | zero => omega
      | succ g =>
        have hdiv : x / 2 < x := Nat.div_lt_self (by omega) (by decide)
        simp only [bitCountAux, hx, if_false]
        rw [ih g (x / 2) (by omega) (by omega)]

theorem bit_count_rec (x : Nat) (hx : x ≠ 0) :
    bit_count x = bit_count (x / 2) + x % 2 := by
  cases x with
  | zero => exact absurd rfl hx
  | succ k =>
    show bitCountAux (k + 1) (k + 1) = bitCountAux ((k + 1) / 2) ((k + 1) / 2) + (k + 1) % 2
    simp only [bitCountAux, Nat.succ_ne_zero, if_false]
    have hdiv : (k + 1) / 2 ≤ k := by omega
    rw [bitCountAux_congr k ((k + 1) / 2) ((k + 1) / 2) hdiv le_rfl]

/-- The set-bit positions of `x` below `k`. -/
def bitIndices (k x : Nat) : Finset Nat :=
  (Finset.range k).filter fun i => x.testBit i = true

theorem range_succ_bot (k : Nat) :
    Finset.range (k + 1) = insert 0 ((Finset.range k).image (· + 1)) := by
  ext i
  simp only [Finset.mem_range, Finset.mem_insert, Finset.mem_image]
  constructor
  · intro h
    by_cases h0 : i = 0
    · exact Or.inl h0
    · exact Or.inr ⟨i - 1, by omega, by omega⟩
  · rintro (h | ⟨j, hj, rfl⟩) <;> omega

theorem bit_count_eq_card : ∀ k x, x < 2 ^ k → bit_count x = (bitIndices k x).card := by
  intro k
  induction k with
  | zero =>
    intro x hx
    have : x = 0 := by omega
    subst this
    rfl
  | succ k ih =>
    intro x hx
    by_cases hx0 : x = 0
    · subst hx0
      simp only [bitIndices, Nat.zero_testBit]
      simp [bit_count, bitCountAux]
    · have hdiv : x / 2 < 2 ^ k := by
        have := Nat.pow_succ 2 k
        omega
      rw [bit_count_rec x hx0, ih (x / 2) hdiv]
      have himg : bitIndices (k + 1) x
          = (insert 0 ((Finset.range k).image (· + 1))).filter (fun i => x.testBit i = true) := by
        unfold bitIndices
        rw [range_succ_bot]
      rw [himg, Finset.filter_insert, Finset.filter_image]
      have hsucc : ((Finset.range k).filter fun a => x.testBit (a + 1) = true)
          = bitIndices k (x / 2) := by
        apply Finset.filter_congr
        intro i _
        rw [Nat.testBit_succ]
      have hcard : (((Finset.range k).filter fun a => x.testBit (a + 1) = true).image (· + 1)).card
          = (bitIndices k (x / 2)).card := by
        rw [Finset.card_image_of_injective _ (fun a b h => by omega), hsucc]
      by_cases hb : x.testBit 0 = true
      · have h1 : x % 2 = 1 := by
          have ht := Nat.testBit_zero x
          rw [hb] at ht
          exact decide_eq_true_eq.mp ht.symm
        rw [if_pos hb, Finset.card_insert_of_not_mem (by simp), hcard, h1]
      · have h0 : x % 2 = 0 := by
          have ht := Nat.testBit_zero x
          rw [Bool.not_eq_true] at hb
          rw [hb] at ht
          have hne1 : ¬ (x % 2 = 1) := of_decide_eq_false ht.symm
          omega
        rw [if_neg hb, hcard, h0]
        omega

theorem testBit_mono_of_land_eq {a b : Nat} (h : a &&& b = a) :
    ∀ i, a.testBit i = true → b.testBit i = true := by
  intro i hi
  have := congrArg (fun z => z.testBit i) h
  simp only [Nat.testBit_and] at this
  rw [hi] at this
  simpa using this.symm

theorem exists_testBit_of_ne_zero {x : Nat} (hx : x ≠ 0) :
    ∃ i, x.testBit i = true := by
  by_contra h
  push_neg at h
  exact hx (Nat.eq_of_testBit_eq fun i => by
    rw [Nat.zero_testBit]
    exact Bool.eq_false_iff.mpr (h i))

theorem testBit_lt_of_true {x i : Nat} (h : x.testBit i = true) : i < x := by
  by_contra hc
  push_neg at hc
  have hx : x < 2 ^ i := Nat.lt_of_le_of_lt hc (Nat.lt_two_pow i)
  rw [Nat.testBit_lt_two_pow hx] at h
  exact Bool.false_ne_true h

theorem bit_count_lt_of_land_eq_of_ne {a b : Nat} (hsub : a &&& b = a) (hne : a ≠ b) :
    bit_count a < bit_count b := by
  have hab : a ≤ b := hsub ▸ Nat.and_le_right
  have hb : b < 2 ^ b := Nat.lt_two_pow b
  have ha : a < 2 ^ b := Nat.lt_of_le_of_lt hab hb
  rw [bit_count_eq_card b a ha, bit_count_eq_card b b hb]
  apply Finset.card_lt_card
  rw [Finset.ssubset_iff_of_subset]
  · obtain ⟨i, hi⟩ : ∃ i, a.testBit i ≠ b.testBit i := by
      by_contra h
      push_neg at h
      exact hne (Nat.eq_of_testBit_eq h)
    have hbi : b.testBit i = true := by
      cases hba : b.testBit i
      · cases haa : a.testBit i
        · rw [haa, hba] at hi; exact absurd rfl hi
        · rw [testBit_mono_of_land_eq hsub i haa] at hba
          exact absurd hba (by simp)
      · rfl
    have hai : a.testBit i = false := by
      cases haa : a.testBit i
      · rfl
      · rw [hbi] at hi; rw [haa] at hi; exact absurd rfl hi
    refine ⟨i, ?_, ?_⟩
    · simp only [bitIndices, Finset.mem_filter, Finset.mem_range]
      exact ⟨testBit_lt_of_true hbi, hbi⟩
    · simp only [bitIndices, Finset.mem_filter, Finset.mem_range]
      intro hmem
      rw [hai] at hmem
      exact Bool.false_ne_true hmem.2
  · intro i hmem
    simp only [bitIndices, Finset.mem_filter, Finset.mem_range] at hmem ⊢
    exact ⟨hmem.1, testBit_mono_of_land_eq hsub i hmem.2⟩

/-! ### Masks of walked lines stay inside the board's full mask -/

theorem land_two_pow_sub_one {x K : Nat} (h : x < 2 ^ K) : x &&& (2 ^ K - 1) = x := by
  apply Nat.eq_of_testBit_eq
  intro i
  rw [Nat.testBit_and, Nat.testBit_two_pow_sub_one]
  cases hx : x.testBit i
  · simp
  · have hi : i < K := by
      by_contra hK
      push_neg at hK
      have hlt : x < 2 ^ i := lt_of_lt_of_le h (Nat.pow_le_pow_right (by decide) hK)
      rw [Nat.testBit_lt_two_pow hlt] at hx
      exact Bool.false_ne_true hx
    simp [hi]

theorem full_mask_eq (m n : Int) : Board.full_mask m n = 2 ^ (m * n).toNat - 1 := by
  unfold Board.full_mask
  rw [Nat.one_shiftLeft]

theorem xy2id_lt {m n x y : Int} (h : in_bounds m n x y = true) :
    xy2id n x y < (m * n).toNat := by
  have hb : 0 ≤ x ∧ x < m ∧ 0 ≤ y ∧ y < n := by
    simpa [in_bounds] using h
  obtain ⟨hx0, hxm, hy0, hyn⟩ := hb
  have hxy : x * n + y < m * n := by
    have h1 : x * n ≤ (m - 1) * n := by
      apply mul_le_mul_of_nonneg_right (by omega) (by omega)
    have h2 : (m - 1) * n = m * n - n := by ring
    omega
  have hn0 : (0 : Int) ≤ n := by omega
  have h0 : (0 : Int) ≤ x * n + y := add_nonneg (mul_nonneg hx0 hn0) hy0
  have hmn : (0 : Int) ≤ m * n := mul_nonneg (by omega) hn0
  unfold xy2id
  rw [Int.toNat_lt h0, Int.toNat_of_nonneg hmn]
  exact hxy

theorem walk_mask_lt (m n dx dy : Int) :
    ∀ fuel x y, (walk m n dx dy fuel x y).1 < 2 ^ (m * n).toNat := by
  intro fuel
  induction fuel with
  | zero => intro x y; exact Nat.pos_pow_of_pos _ (by decide)
  | succ fuel ih =>
    intro x y
    by_cases hib : in_bounds m n x y = true
    · simp only [walk, hib, if_true]
      apply Nat.or_lt_two_pow (ih (x + dx) (y + dy))
      rw [Nat.one_shiftLeft]
      exact Nat.pow_lt_pow_right (by decide) (xy2id_lt hib)
    · simp only [walk, hib, if_false]
      exact Nat.pos_pow_of_pos _ (by decide)

theorem mem_line_candidates_lt {m n : Int} {M : Nat} (h : M ∈ line_candidates m n) :
    M < 2 ^ (m * n).toNat := by
  simp only [line_candidates, List.mem_flatMap, List.mem_filterMap] at h
  obtain ⟨d, _, x0, _, y0, _, hf⟩ := h
  split at hf
  · exact absurd hf (by simp)
  · split at hf
    · rw [← Option.some.inj hf]
      exact walk_mask_lt m n d.1 d.2 _ x0 y0
    · exact absurd hf (by simp)

theorem mem_insertNew {l : List Nat} {a x : Nat} :
    x ∈ insertNew l a ↔ x ∈ l ∨ x = a := by
  unfold insertNew
  split
  · constructor
    · exact Or.inl
    · rintro (h | rfl)
      · exact h
      · assumption
  · simp

theorem mem_foldl_insertNew : ∀ (l acc : List Nat) (x : Nat),
    x ∈ l.foldl insertNew acc ↔ x ∈ acc ∨ x ∈ l := by
  intro l
  induction l with
  | nil => simp
  | cons a l ih =>
    intro acc x
    simp only [List.foldl_cons, ih, mem_insertNew, List.mem_cons]
    tauto

theorem nodup_insertNew {l : List Nat} {a : Nat} (h : l.Nodup) :
    (insertNew l a).Nodup := by
  unfold insertNew
  split
  · exact h
  · rename_i hna
    exact List.Nodup.append h (List.nodup_singleton a)
      (by simpa [List.disjoint_singleton] using hna)

theorem nodup_foldl_insertNew : ∀ (l acc : List Nat), acc.Nodup →
    (l.foldl insertNew acc).Nodup := by
  intro l
  induction l with
  | nil => intro acc h; exact h
  | cons a l ih =>
    intro acc h
    exact ih _ (nodup_insertNew h)

theorem enumerate_nodup (m n : Int) : (enumerate_lines_bitmask m n).Nodup :=
  nodup_foldl_insertNew _ _ List.nodup_nil

theorem mem_enumerate_iff {m n : Int} {x : Nat} :
    x ∈ enumerate_lines_bitmask m n ↔ x ∈ line_candidates m n := by
  unfold enumerate_lines_bitmask
  rw [mem_foldl_insertNew]
  simp

theorem insertDesc_perm (a : Nat) : ∀ l : List Nat, (Board.insertDesc a l).Perm (a :: l) := by
  intro l
  induction l with
  | nil => exact List.Perm.refl _
  | cons b bs ih =>
    unfold Board.insertDesc
    split
    · exact List.Perm.refl _
    · exact List.Perm.trans (List.Perm.cons b ih) (List.Perm.swap a b bs)

theorem sortDesc_perm : ∀ l : List Nat, (Board.sortDesc l).Perm l := by
  intro l
  induction l with
  | nil => exact List.Perm.refl _
  | cons x xs ih =>
    show (Board.insertDesc x (Board.sortDesc xs)).Perm (x :: xs)
    exact List.Perm.trans (insertDesc_perm x (Board.sortDesc xs)) (List.Perm.cons x ih)

theorem mem_lines_iff {m n : Int} {x : Nat} :
    x ∈ Board.lines m n ↔ x ∈ enumerate_lines_bitmask m n :=
  (sortDesc_perm (enumerate_lines_bitmask m n)).mem_iff

theorem lines_subset_full {m n : Int} {l : Nat} (h : l ∈ Board.lines m n) :
    l &&& Board.full_mask m n = l := by
  rw [full_mask_eq]
  exact land_two_pow_sub_one
    (mem_line_candidates_lt (mem_enumerate_iff.mp (mem_lines_iff.mp h)))

/-! ### Successor states strictly shrink -/

theorem succ_and_self {s z : Nat} : (s &&& z) &&& s = s &&& z := by
  apply Nat.eq_of_testBit_eq
  intro i
  simp only [Nat.testBit_and]
  cases s.testBit i <;> cases z.testBit i <;> rfl

theorem succ_lt {s l FULL : Nat} (hl : l &&& FULL = l) (hg : s &&& l ≠ 0) :
    s &&& (FULL ^^^ l) < s := by
  have hle : s &&& (FULL ^^^ l) ≤ s := Nat.and_le_left
  apply lt_of_le_of_ne hle
  obtain ⟨i, hi⟩ := exists_testBit_of_ne_zero hg
  rw [Nat.testBit_and] at hi
  have hsi : s.testBit i = true := by
    cases h : s.testBit i
    · rw [h] at hi; exact absurd hi (by simp)
    · rfl
  have hli : l.testBit i = true := by
    cases h : l.testBit i
    · rw [h] at hi; simp at hi
    · rfl
  have hFi : FULL.testBit i = true := testBit_mono_of_land_eq hl i hli
  intro heq
  have hbit := congrArg (fun z => z.testBit i) heq
  simp only [Nat.testBit_and, Nat.testBit_xor, hsi, hFi, hli] at hbit
  simp at hbit

theorem succ_strict_shrink {s l FULL : Nat} (hl : l &&& FULL = l) (hg : s &&& l ≠ 0) :
    (s &&& (FULL ^^^ l)) &&& s = s &&& (FULL ^^^ l)
      ∧ s &&& (FULL ^^^ l) ≠ s
      ∧ s &&& (FULL ^^^ l) < s
      ∧ bit_count (s &&& (FULL ^^^ l)) < bit_count s := by
  have hlt := succ_lt hl hg
  exact ⟨succ_and_self, ne_of_lt hlt, hlt,
    bit_count_lt_of_land_eq_of_ne succ_and_self (ne_of_lt hlt)⟩

/-! ### Memo dictionary: lookup facts -/

theorem lookup_cons (a k : Nat) (v : Bool) (ms : List (Nat × Bool)) :
    ((k, v) :: ms).lookup a = if a = k then some v else ms.lookup a := by
  simp only [List.lookup]
  by_cases h : a = k
  · subst h; simp
  · simp [beq_eq_false_iff_ne.mpr h, h]

theorem lookup_eq_none_iff {ms : List (Nat × Bool)} {a : Nat} :
    ms.lookup a = none ↔ a ∉ ms.map Prod.fst := by
  induction ms with
  | nil => simp [List.lookup]
  | cons p ms ih =>
    obtain ⟨k, v⟩ := p
    rw [lookup_cons]
    by_cases h : a = k
    · subst h; simp
    · simp [h, ih]

theorem mem_of_lookup_eq_some {ms : List (Nat × Bool)} {a : Nat} {b : Bool}
    (h : ms.lookup a = some b) : (a, b) ∈ ms := by
  induction ms with
  | nil => simp [List.lookup] at h
  | cons p ms ih =>
    obtain ⟨k, v⟩ := p
    rw [lookup_cons] at h
    by_cases hak : a = k
    · subst hak
      rw [if_pos rfl] at h
      cases Option.some.inj h
      exact List.mem_cons_self _ _
    · rw [if_neg hak] at h
      exact List.mem_cons_of_mem _ (ih h)

theorem lookup_append_none {xs ys : List (Nat × Bool)} {a : Nat} :
    (xs ++ ys).lookup a = none ↔ xs.lookup a = none ∧ ys.lookup a = none := by
  induction xs with
  | nil => simp [List.lookup]
  | cons p xs ih =>
    obtain ⟨k, v⟩ := p
    rw [List.cons_append, lookup_cons, lookup_cons]
    by_cases h : a = k
    · simp [h]
    · simp [h, ih]

/-! ### The pure value semantics: fuel irrelevance and the fixpoint -/

theorem any_congr {α : Type} {p q : α → Bool} :
    ∀ l : List α, (∀ a ∈ l, p a = q a) → l.any p = l.any q := by
  intro l
  induction l with
  | nil => intro _; rfl
  | cons a l ih =>
    intro h
    simp only [List.any_cons, h a (List.mem_cons_self a l),
      ih fun b hb => h b (List.mem_cons_of_mem a hb)]

theorem winPure_congr {lines : List Nat} {FULL : Nat}
    (hsub : ∀ l ∈ lines, l &&& FULL = l) :
    ∀ s f g, s < f → s < g → winPure lines FULL f s = winPure lines FULL g s := by
  intro s
  induction s using Nat.strong_induction_on with
  | _ s ih =>
    intro f g hf hg
    cases f with
    | zero => omega
    | succ f =>
      cases g with
      | zero => omega
      | succ g =>
        by_cases hs : s = 0
        · subst hs; simp [winPure]
        · simp only [winPure, hs, if_false]
          apply any_congr
          intro l hl
          by_cases hg' : s &&& l = 0
          · simp [hg']
          · have hlt : s &&& (FULL ^^^ l) < s := succ_lt (hsub l hl) hg'
            rw [ih _ hlt f g (by omega) (by omega)]

/-- The stabilized value of the game search at a state (with just enough
fuel; by `winPure_congr` any larger fuel gives the same value). -/
def winPureV (lines : List Nat) (FULL : Nat) (s : Nat) : Bool :=
  winPure lines FULL (s + 1) s

theorem winPureV_fix {lines : List Nat} {FULL : Nat}
    (hsub : ∀ l ∈ lines, l &&& FULL = l) {s : Nat} (hs : s ≠ 0) :
    winPureV lines FULL s
      = lines.any fun l =>
          decide (s &&& l ≠ 0) && ! winPureV lines FULL (s &&& (FULL ^^^ l)) := by
  unfold winPureV
  conv_lhs => rw [winPure]
  simp only [hs, if_false]
  apply any_congr
  intro l hl
  by_cases hg : s &&& l = 0
  · simp [hg]
  · have hlt : s &&& (FULL ^^^ l) < s := succ_lt (hsub l hl) hg
    rw [winPure_congr hsub (s &&& (FULL ^^^ l)) s ((s &&& (FULL ^^^ l)) + 1) hlt
      (Nat.lt_succ_self _)]

/-! ### Fuel irrelevance of the memoized search (termination) -/

theorem winLoop_congr {FULL state : Nat}
    {eval1 eval2 : List (Nat × Bool) → Nat → Bool × List (Nat × Bool)}
    (heval : ∀ memo t, t < state → eval1 memo t = eval2 memo t) :
    ∀ ls : List Nat, (∀ l ∈ ls, l &&& FULL = l) →
      ∀ memo, winLoop eval1 FULL state ls memo = winLoop eval2 FULL state ls memo := by
  intro ls
  induction ls with
  | nil => intro _ memo; rfl
  | cons l ls ih =>
    intro hls memo
    have hl : l &&& FULL = l := hls l (List.mem_cons_self l ls)
    have hls' : ∀ a ∈ ls, a &&& FULL = a := fun a ha => hls a (List.mem_cons_of_mem l ha)
    simp only [winLoop]
    by_cases hg : state &&& l = 0
    · rw [if_pos hg, if_pos hg]
      exact ih hls' memo
    · rw [if_neg hg, if_neg hg,
        heval memo (state &&& (FULL ^^^ l)) (succ_lt hl hg)]
      by_cases hr : (eval2 memo (state &&& (FULL ^^^ l))).1 = true
      · rw [if_pos hr, if_pos hr]
        exact ih hls' _
      · rw [if_neg hr, if_neg hr]

theorem win_congr {lines : List Nat} {FULL : Nat}
    (hsub : ∀ l ∈ lines, l &&& FULL = l) :
    ∀ s f g memo, s < f → s < g →
      win lines FULL f memo s = win lines FULL g memo s := by
  intro s
  induction s using Nat.strong_induction_on with
  | _ s ih =>
    intro f g memo hf hg
    cases f with
    | zero => omega
    | succ f =>
      cases g with
      | zero => omega
      | succ g =>
        by_cases hs : s = 0
        · simp [win, hs]
        · simp only [win, hs, if_false]
          cases hlk : memo.lookup s
          · exact winLoop_congr
              (fun memo' t ht => ih t ht f g memo' (by omega) (by omega))
              lines hsub memo
          · rfl

/-! ### Memo correctness and the memo-table invariants -/

/-- Every entry of the memo stores the true game value of its key. -/
def Truthful (lines : List Nat) (FULL : Nat) (memo : List (Nat × Bool)) : Prop :=
  ∀ p ∈ memo, p.2 = winPureV lines FULL p.1

/-- Postcondition of one evaluation of `win` at state `t` starting from
`memo`: the returned verdict is the true game value, and the returned memo
extends `memo` with fresh, mutually distinct keys `≤ t`, all entries
truthful. -/
def WinPost (lines : List Nat) (FULL : Nat) (memo : List (Nat × Bool)) (t : Nat)
    (r : Bool × List (Nat × Bool)) : Prop :=
  r.1 = winPureV lines FULL t
    ∧ ∃ new, r.2 = new ++ memo
        ∧ (∀ k ∈ new.map Prod.fst, k ≤ t ∧ memo.lookup k = none)
        ∧ (new.map Prod.fst).Nodup
        ∧ (∀ p ∈ new, p.2 = winPureV lines FULL p.1)
        ∧ (t ≠ 0 → memo.lookup t = none → t ∈ new.map Prod.fst)

theorem winLoop_spec {lines : List Nat} {FULL : Nat}
    (hsub : ∀ l ∈ lines, l &&& FULL = l) {fuel state : Nat}
    (heval : ∀ memo t, Truthful lines FULL memo → t < state →
      WinPost lines FULL memo t (win lines FULL fuel memo t)) :
    ∀ ls : List Nat, ∀ memo, (∀ l ∈ ls, l ∈ lines) → Truthful lines FULL memo →
      memo.lookup state = none →
      (ls.any fun l =>
          decide (state &&& l ≠ 0)
            && ! winPureV lines FULL (state &&& (FULL ^^^ l)))
        = winPureV lines FULL state →
      WinPost lines FULL memo state (winLoop (win lines FULL fuel) FULL state ls memo) := by
  intro ls
  induction ls with
  | nil =>
    intro memo _ htr hlk hany
    simp only [List.any_nil] at hany
    refine ⟨hany, [(state, false)], rfl, ?_, ?_, ?_, ?_⟩
    · intro k hk
      simp only [List.map_cons, List.map_nil, List.mem_singleton] at hk
      subst hk
      exact ⟨le_rfl, hlk⟩
    · simp
    · intro p hp
      simp only [List.mem_singleton] at hp
      subst hp
      exact hany
    · intro _ _
      simp
  | cons l ls ih =>
    intro memo hmem htr hlk hany
    have hlmem : l ∈ lines := hmem l (List.mem_cons_self l ls)
    have hmem' : ∀ a ∈ ls, a ∈ lines := fun a ha => hmem a (List.mem_cons_of_mem l ha)
    simp only [winLoop]
    by_cases hg : state &&& l = 0
    · rw [if_pos hg]
      apply ih memo hmem' htr hlk
      simpa [hg] using hany
    · rw [if_neg hg]
      have hnext : state &&& (FULL ^^^ l) < state := succ_lt (hsub l hlmem) hg
      obtain ⟨hcv, cnew, hceq, hckeys, hcnodup, hctruth, -⟩ := heval memo _ htr hnext
      cases hwv : winPureV lines FULL (state &&& (FULL ^^^ l))
      · -- the successor is a loss for its mover: short-circuit, memoize true
        rw [hwv] at hcv
        rw [hcv, if_neg (by simp)]
        have hpl : (decide (state &&& l ≠ 0)
            && ! winPureV lines FULL (state &&& (FULL ^^^ l))) = true := by
          simp [hg, hwv]
        have hstate : winPureV lines FULL state = true := by
          rw [← hany]
          simp only [List.any_cons, hpl, Bool.true_or]
        refine ⟨by simpa using hstate.symm, (state, true) :: cnew, by rw [hceq]; rfl, ?_, ?_, ?_, ?_⟩
        · intro k hk
          simp only [List.map_cons, List.mem_cons] at hk
          rcases hk with rfl | hk
          · exact ⟨le_rfl, hlk⟩
          · obtain ⟨hk1, hk2⟩ := hckeys k hk
            exact ⟨le_trans hk1 (le_of_lt hnext), hk2⟩
        · simp only [List.map_cons, List.nodup_cons]
          refine ⟨?_, hcnodup⟩
          intro hmem0
          have := (hckeys state hmem0).1
          omega
        · intro p hp
          rcases List.mem_cons.mp hp with rfl | hp
          · exact hstate.symm
          · exact hctruth p hp
        · intro _ _
          simp
      · -- the successor is a win for its mover: keep looping
        rw [hwv] at hcv
        rw [hcv, if_pos rfl]
        have htr2 : Truthful lines FULL ((win lines FULL fuel memo (state &&& (FULL ^^^ l))).2) := by
          rw [hceq]
          intro p hp
          rcases List.mem_append.mp hp with hp | hp
          · exact hctruth p hp
          · exact htr p hp
        have hlk2 : ((win lines FULL fuel memo (state &&& (FULL ^^^ l))).2).lookup state = none := by
          rw [hceq, lookup_append_none]
          refine ⟨lookup_eq_none_iff.mpr ?_, hlk⟩
          intro hmem0
          have := (hckeys state hmem0).1
          omega
        have hany2 : (ls.any fun a =>
            decide (state &&& a ≠ 0)
              && ! winPureV lines FULL (state &&& (FULL ^^^ a)))
            = winPureV lines FULL state := by
          rw [← hany]
          simp only [List.any_cons, hwv]
          simp
        obtain ⟨hv2, new2, heq2, hkeys2, hnodup2, htruth2, hroot2⟩ :=
          ih _ hmem' htr2 hlk2 hany2
        refine ⟨hv2, new2 ++ cnew, ?_, ?_, ?_, ?_, ?_⟩
        · rw [heq2, hceq, List.append_assoc]
        · intro k hk
          rw [List.map_append, List.mem_append] at hk
          rcases hk with hk | hk
          · obtain ⟨hk1, hk2⟩ := hkeys2 k hk
            rw [hceq, lookup_append_none] at hk2
            exact ⟨hk1, hk2.2⟩
          · obtain ⟨hk1, hk2⟩ := hckeys k hk
            exact ⟨le_trans hk1 (le_of_lt hnext), hk2⟩
        · rw [List.map_append, List.nodup_append]
          refine ⟨hnodup2, hcnodup, ?_⟩
          intro k hk hk2
          obtain ⟨_, hnone⟩ := hkeys2 k hk
          rw [hceq, lookup_append_none] at hnone
          exact (lookup_eq_none_iff.mp hnone.1) hk2
        · intro p hp
          rcases List.mem_append.mp hp with hp | hp
          · exact htruth2 p hp
          · exact hctruth p hp
        · intro hne _
          rw [List.map_append, List.mem_append]
          exact Or.inl (hroot2 hne hlk2)

theorem win_spec {lines : List Nat} {FULL : Nat}
    (hsub : ∀ l ∈ lines, l &&& FULL = l) :
    ∀ state fuel memo, state < fuel → Truthful lines FULL memo →
      WinPost lines FULL memo state (win lines FULL fuel memo state) := by
  intro state
  induction state using Nat.strong_induction_on with
  | _ state ih =>
    intro fuel memo hfuel htr
    cases fuel with
    | zero => omega
    | succ fuel =>
      by_cases hs : state = 0
      · subst hs
        simp only [win, if_pos rfl]
        exact ⟨rfl, [], rfl, by simp, by simp, by simp, fun h _ => absurd rfl h⟩
      · simp only [win, hs, if_false]
        cases hlk : memo.lookup state
        · simp only []
          exact winLoop_spec hsub
            (fun memo' t htr' hlt => ih t hlt fuel memo' (by omega) htr')
            lines memo (fun l hl => hl) htr hlk
            (winPureV_fix hsub hs).symm
        · rename_i b
          refine ⟨(htr _ (mem_of_lookup_eq_some hlk)), [], rfl, by simp, by simp, by simp, ?_⟩
          intro _ hnone
          rw [hlk] at hnone
          cases hnone

theorem truthful_nil {lines : List Nat} {FULL : Nat} : Truthful lines FULL [] :=
  fun p hp => absurd hp (List.not_mem_nil p)

/-- The value returned by the procedure `win` on a state, run with an empty
memo and just enough fuel. -/
def winVal (lines : List Nat) (FULL : Nat) (s : Nat) : Bool :=
  (win lines FULL (s + 1) [] s).1

theorem winVal_eq_winPureV {lines : List Nat} {FULL : Nat}
    (hsub : ∀ l ∈ lines, l &&& FULL = l) (s : Nat) :
    winVal lines FULL s = winPureV lines FULL s :=
  (win_spec hsub s (s + 1) [] (by omega) truthful_nil).1

/-! ### Sortedness of the line list -/

theorem pairwise_insertDesc {a : Nat} :
    ∀ l : List Nat, List.Pairwise (fun x y => bit_count y ≤ bit_count x) l →
      List.Pairwise (fun x y => bit_count y ≤ bit_count x) (Board.insertDesc a l) := by
  intro l
  induction l with
  | nil => intro _; simp [Board.insertDesc]
  | cons b bs ih =>
    intro hp
    rw [List.pairwise_cons] at hp
    unfold Board.insertDesc
    by_cases h : bit_count b ≤ bit_count a
    · rw [if_pos h, List.pairwise_cons]
      refine ⟨?_, List.pairwise_cons.mpr hp⟩
      intro c hc
      rcases List.mem_cons.mp hc with rfl | hc
      · exact h
      · exact le_trans (hp.1 c hc) h
    · rw [if_neg h, List.pairwise_cons]
      refine ⟨?_, ih hp.2⟩
      intro c hc
      rcases List.mem_cons.mp ((insertDesc_perm a bs).mem_iff.mp hc) with rfl | hc
      · omega
      · exact hp.1 c hc

theorem sortDesc_pairwise :
    ∀ l : List Nat,
      List.Pairwise (fun x y => bit_count y ≤ bit_count x) (Board.sortDesc l) := by
  intro l
  induction l with
  | nil => simp [Board.sortDesc]
  | cons x xs ih => exact pairwise_insertDesc (Board.sortDesc xs) ih

/-! ### Degenerate solves -/

theorem full_mask_pos {m n : Int} (h : 0 < m * n) : Board.full_mask m n ≠ 0 := by
  rw [full_mask_eq]
  have hK : 1 ≤ (m * n).toNat := by omega
  have h2 : 2 ^ 1 ≤ 2 ^ (m * n).toNat := Nat.pow_le_pow_right (by decide) hK
  omega

theorem solve_empty_lines {m n : Int} (hpos : 0 < m * n)
    (h : enumerate_lines_bitmask m n = []) : has_forced_win m n = .ok (false, 1) := by
  have hlines : Board.lines m n = [] := by
    rw [Board.lines, h]
    rfl
  have hF : ¬ Board.full_mask m n = 0 := full_mask_pos hpos
  unfold has_forced_win
  rw [if_neg (by omega : ¬ m * n < 0)]
  simp only [hlines, win, if_neg hF, List.lookup, winLoop]
  simp

theorem solve_zero_area {m n : Int} (h0 : m * n = 0) : has_forced_win m n = .ok (false, 0) := by
  have hF : Board.full_mask m n = 0 := by
    rw [full_mask_eq]
    have h00 : (m * n).toNat = 0 := by omega
    rw [h00]
    rfl
  unfold has_forced_win
  rw [if_neg (by omega : ¬ m * n < 0)]
  simp only [hF]
  simp [win]

/-! ### Claim theorems (solver side) -/

/-- C1: for every m, n ≥ 1, `has_forced_win` reports the value of the
recursive procedure `win` at the full-board state with the enumerated
lines, and that value satisfies the game-theoretic fixpoint:
`win 0 = false`, and for `state ≠ 0`, `win state = true` iff some line
with `(state & line) ≠ 0` leads to a successor
`state & (full_mask ^ line)` on which `win` is `false`. -/
theorem C1_win_fixpoint (m n : Int) (hm : 1 ≤ m) (hn : 1 ≤ n) :
    (∃ k, has_forced_win m n
        = .ok (winVal (Board.lines m n) (Board.full_mask m n) (Board.full_mask m n), k))
    ∧ winVal (Board.lines m n) (Board.full_mask m n) 0 = false
    ∧ ∀ state, state ≠ 0 →
        (winVal (Board.lines m n) (Board.full_mask m n) state = true
          ↔ ∃ l ∈ Board.lines m n, state &&& l ≠ 0
              ∧ winVal (Board.lines m n) (Board.full_mask m n)
                  (state &&& (Board.full_mask m n ^^^ l)) = false) := by
  have hmn : 0 < m * n := mul_pos (by omega) (by omega)
  have hsub : ∀ l ∈ Board.lines m n, l &&& Board.full_mask m n = l :=
    fun l hl => lines_subset_full hl
  refine ⟨?_, rfl, ?_⟩
  · refine ⟨(win (Board.lines m n) (Board.full_mask m n)
      (Board.full_mask m n + 1) [] (Board.full_mask m n)).2.length, ?_⟩
    unfold has_forced_win
    rw [if_neg (by omega : ¬ m * n < 0)]
    rfl
  · intro state hstate
    rw [winVal_eq_winPureV hsub state, winPureV_fix hsub hstate, List.any_eq_true]
    constructor
    · rintro ⟨l, hl, hp⟩
      rw [Bool.and_eq_true, decide_eq_true_eq, Bool.not_eq_true'] at hp
      exact ⟨l, hl, hp.1, by rw [winVal_eq_winPureV hsub]; exact hp.2⟩
    · rintro ⟨l, hl, hg, hv⟩
      refine ⟨l, hl, ?_⟩
      rw [winVal_eq_winPureV hsub] at hv
      simp [hg, hv]

theorem C1_win_fixpoint_witness :
    (1 ≤ (2 : Int)) ∧ (1 ≤ (2 : Int))
    ∧ ((∃ k, has_forced_win 2 2
        = .ok (winVal (Board.lines 2 2) (Board.full_mask 2 2) (Board.full_mask 2 2), k))
      ∧ winVal (Board.lines 2 2) (Board.full_mask 2 2) 0 = false
      ∧ ∀ state, state ≠ 0 →
          (winVal (Board.lines 2 2) (Board.full_mask 2 2) state = true
            ↔ ∃ l ∈ Board.lines 2 2, state &&& l ≠ 0
                ∧ winVal (Board.lines 2 2) (Board.full_mask 2 2)
                    (state &&& (Board.full_mask 2 2 ^^^ l)) = false)) :=
  ⟨by norm_num, by norm_num, C1_win_fixpoint 2 2 (by norm_num) (by norm_num)⟩

/-- C3 (counterexample): in the solve of the 2×2 board, state 9 is visited
(it is a key of the final memo), line 5 is examined as a legal move there
since `9 &&& 5 ≠ 0`, yet the line is only partially present
(`9 &&& 5 ≠ 5`), and the corresponding successor `9 &&& (15 ^^^ 5) = 8`
is itself visited — so a move IS generated from a partially present
line, refuting the claim that `(state & line) = line` is required. -/
theorem C3_counterexample :
    (9, true) ∈ (win (Board.lines 2 2) (Board.full_mask 2 2)
        (Board.full_mask 2 2 + 1) [] (Board.full_mask 2 2)).2
    ∧ (8, true) ∈ (win (Board.lines 2 2) (Board.full_mask 2 2)
        (Board.full_mask 2 2 + 1) [] (Board.full_mask 2 2)).2
    ∧ 5 ∈ Board.lines 2 2
    ∧ 9 &&& 5 ≠ 0
    ∧ 9 &&& 5 ≠ 5
    ∧ 9 &&& (Board.full_mask 2 2 ^^^ 5) = 8 := by
  refine ⟨?_, ?_, ?_, by decide, by decide, by decide⟩ <;> decide

/-- C3 (amended): a line is treated as a legal move whenever it has at
least one still-present point (`(state & line) ≠ 0`), even if only
partially present; applying it removes exactly the still-present points of
the line: for any state within the full mask and any enumerated line,
`state & (full_mask ^ line) = state ^ (state & line)`. -/
theorem C3_amended (m n : Int) (hm : 1 ≤ m) (hn : 1 ≤ n) :
    ∀ state, state &&& Board.full_mask m n = state →
      ∀ l ∈ Board.lines m n,
        state &&& (Board.full_mask m n ^^^ l) = state ^^^ (state &&& l) := by
  intro s hsF l hl
  have hlF := lines_subset_full hl
  apply Nat.eq_of_testBit_eq
  intro i
  simp only [Nat.testBit_and, Nat.testBit_xor]
  cases hsi : s.testBit i
  · simp
  · have hFi : (Board.full_mask m n).testBit i = true := testBit_mono_of_land_eq hsF i hsi
    rw [hFi]
    cases hli : l.testBit i <;> rfl

theorem C3_amended_witness :
    (1 ≤ (2 : Int)) ∧ (1 ≤ (2 : Int))
    ∧ (∀ state, state &&& Board.full_mask 2 2 = state →
        ∀ l ∈ Board.lines 2 2,
          state &&& (Board.full_mask 2 2 ^^^ l) = state ^^^ (state &&& l)) :=
  ⟨by norm_num, by norm_num, C3_amended 2 2 (by norm_num) (by norm_num)⟩

/-- C4: for every m, n ≥ 1, any legal application of an enumerated line
to a state below `2^(m*n)` yields a successor that is a strict subset of
the state with strictly smaller population count; consequently the
recursion terminates — the result of `win` is independent of the fuel
bound as soon as it exceeds the state. -/
theorem C4_shrink_and_termination (m n : Int) (hm : 1 ≤ m) (hn : 1 ≤ n) :
    (∀ state, state < 2 ^ (m * n).toNat → ∀ l ∈ Board.lines m n, state &&& l ≠ 0 →
        (state &&& (Board.full_mask m n ^^^ l)) &&& state
            = state &&& (Board.full_mask m n ^^^ l)
          ∧ state &&& (Board.full_mask m n ^^^ l) ≠ state
          ∧ state &&& (Board.full_mask m n ^^^ l) < state
          ∧ bit_count (state &&& (Board.full_mask m n ^^^ l)) < bit_count state)
    ∧ ∀ state f1 f2 memo, state < f1 → state < f2 →
        win (Board.lines m n) (Board.full_mask m n) f1 memo state
          = win (Board.lines m n) (Board.full_mask m n) f2 memo state := by
  refine ⟨?_, ?_⟩
  · intro state _ l hl hg
    exact succ_strict_shrink (lines_subset_full hl) hg
  · intro state f1 f2 memo h1 h2
    exact win_congr (fun l hl => lines_subset_full hl) state f1 f2 memo h1 h2

theorem C4_shrink_and_termination_witness :
    (1 ≤ (2 : Int)) ∧ (1 ≤ (2 : Int))
    ∧ ((∀ state, state < 2 ^ ((2 : Int) * 2).toNat →
          ∀ l ∈ Board.lines 2 2, state &&& l ≠ 0 →
          (state &&& (Board.full_mask 2 2 ^^^ l)) &&& state
              = state &&& (Board.full_mask 2 2 ^^^ l)
            ∧ state &&& (Board.full_mask 2 2 ^^^ l) ≠ state
            ∧ state &&& (Board.full_mask 2 2 ^^^ l) < state
            ∧ bit_count (state &&& (Board.full_mask 2 2 ^^^ l)) < bit_count state)
      ∧ ∀ state f1 f2 memo, state < f1 → state < f2 →
          win (Board.lines 2 2) (Board.full_mask 2 2) f1 memo state
            = win (Board.lines 2 2) (Board.full_mask 2 2) f2 memo state) :=
  ⟨by norm_num, by norm_num, C4_shrink_and_termination 2 2 (by norm_num) (by norm_num)⟩

/-- C5 (counterexample): with m = 0, n = 1 (so m ≤ 0), neither operation
fails: the line enumeration returns an empty list and the solve returns a
normal result `(false, 0)` — no InvalidDimension condition is raised
before (or instead of) the search. -/
theorem C5_counterexample :
    has_forced_win 0 1 = .ok (false, 0) ∧ enumerate_lines_bitmask 0 1 = [] :=
  ⟨rfl, by decide⟩

theorem dirs_nil_of_nonpos {m n : Int} (h : m ≤ 0 ∨ n ≤ 0) : dirs m n = [] := by
  rcases h with h | h
  · rw [List.eq_nil_iff_forall_not_mem]
    intro d hd
    rw [dirs, List.mem_flatMap] at hd
    obtain ⟨dy, _, hdx⟩ := hd
    have : intRange (-(m - 1)) m = [] := by
      unfold intRange
      have : (m - -(m - 1)).toNat = 0 := by omega
      rw [this]
      rfl
    rw [this] at hdx
    simp at hdx
  · have : intRange (-(n - 1)) n = [] := by
      unfold intRange
      have : (n - -(n - 1)).toNat = 0 := by omega
      rw [this]
      rfl
    rw [dirs, this]
    rfl

theorem enumerate_nil_of_nonpos {m n : Int} (h : m ≤ 0 ∨ n ≤ 0) :
    enumerate_lines_bitmask m n = [] := by
  rw [enumerate_lines_bitmask, line_candidates, dirs_nil_of_nonpos h]
  rfl

/-- C5 (amended): the code performs no dimension validation at all. For
m ≤ 0 or n ≤ 0, the enumeration returns an empty collection rather than
failing; the solve completes normally with a `false` verdict whenever
`m*n ≥ 0`, and only when `m*n < 0` does it fail — with Python's built-in
negative-shift `ValueError`, not any InvalidDimension condition. -/
theorem C5_amended (m n : Int) (h : m ≤ 0 ∨ n ≤ 0) :
    enumerate_lines_bitmask m n = []
    ∧ (0 ≤ m * n → ∃ k, has_forced_win m n = .ok (false, k))
    ∧ (m * n < 0 → has_forced_win m n = .error "negative shift count") := by
  have he := enumerate_nil_of_nonpos h
  refine ⟨he, ?_, ?_⟩
  · intro hmn
    rcases lt_or_eq_of_le hmn with hpos | hzero
    · exact ⟨1, solve_empty_lines hpos he⟩
    · exact ⟨0, solve_zero_area hzero.symm⟩
  · intro hneg
    unfold has_forced_win
    rw [if_pos hneg]

theorem C5_amended_witness :
    ((0 : Int) ≤ 0 ∨ (1 : Int) ≤ 0)
    ∧ (enumerate_lines_bitmask 0 1 = []
      ∧ (0 ≤ (0 : Int) * 1 → ∃ k, has_forced_win 0 1 = .ok (false, k))
      ∧ ((0 : Int) * 1 < 0 → has_forced_win 0 1 = .error "negative shift count")) :=
  ⟨Or.inl le_rfl, C5_amended 0 1 (Or.inl le_rfl)⟩

/-- C6: the memo table of one solve only ever grows (the memo after a call
extends the memo before it), all newly inserted keys were absent before
(no overwrite), the new keys are mutually distinct (at most one entry per
state), and every state whose verdict is actually computed (nonzero and
not already memoized) ends up as a key of the table. -/
theorem C6_memo_invariant (m n : Int) (hm : 1 ≤ m) (hn : 1 ≤ n) :
    ∀ state fuel memo, state < fuel →
      Truthful (Board.lines m n) (Board.full_mask m n) memo →
      ∃ new, (win (Board.lines m n) (Board.full_mask m n) fuel memo state).2 = new ++ memo
        ∧ (∀ k ∈ new.map Prod.fst, memo.lookup k = none)
        ∧ (new.map Prod.fst).Nodup
        ∧ (state ≠ 0 → memo.lookup state = none → state ∈ new.map Prod.fst) := by
  intro state fuel memo hf htr
  obtain ⟨-, new, heq, hkeys, hnodup, -, hroot⟩ :=
    win_spec (fun l hl => lines_subset_full hl) state fuel memo hf htr
  exact ⟨new, heq, fun k hk => (hkeys k hk).2, hnodup, hroot⟩

theorem C6_memo_invariant_witness :
    (1 ≤ (2 : Int)) ∧ (1 ≤ (2 : Int)) ∧ (15 < 16)
    ∧ Truthful (Board.lines 2 2) (Board.full_mask 2 2) []
    ∧ ∃ new, (win (Board.lines 2 2) (Board.full_mask 2 2) 16 [] 15).2 = new ++ []
        ∧ (∀ k ∈ new.map Prod.fst, ([] : List (Nat × Bool)).lookup k = none)
        ∧ (new.map Prod.fst).Nodup
        ∧ (15 ≠ 0 → ([] : List (Nat × Bool)).lookup 15 = none → 15 ∈ new.map Prod.fst) :=
  ⟨by norm_num, by norm_num, by norm_num, truthful_nil,
    C6_memo_invariant 2 2 (by norm_num) (by norm_num) 15 16 [] (by norm_num) truthful_nil⟩

/-- C7: for every m, n ≥ 1 board with fewer than two points (that is,
the 1×1 board), the enumeration is empty; and for any m, n ≥ 1 board
whose enumerated line collection is empty, the solve reports
first-player-wins = false with exactly one state evaluated (the root). -/
theorem C7_degenerate (m n : Int) (hm : 1 ≤ m) (hn : 1 ≤ n) :
    (m * n < 2 → enumerate_lines_bitmask m n = []
      ∧ has_forced_win m n = .ok (false, 1))
    ∧ (enumerate_lines_bitmask m n = [] → has_forced_win m n = .ok (false, 1)) := by
  have hmn : 0 < m * n := mul_pos (by omega) (by omega)
  constructor
  · intro h2
    have hm1 : m = 1 := by nlinarith
    have hn1 : n = 1 := by nlinarith
    subst hm1
    subst hn1
    have he : enumerate_lines_bitmask 1 1 = [] := by decide
    exact ⟨he, solve_empty_lines (by norm_num) he⟩
  · intro he
    exact solve_empty_lines hmn he

theorem C7_degenerate_witness :
    (1 ≤ (1 : Int)) ∧ (1 ≤ (1 : Int))
    ∧ (((1 : Int) * 1 < 2 → enumerate_lines_bitmask 1 1 = []
        ∧ has_forced_win 1 1 = .ok (false, 1))
      ∧ (enumerate_lines_bitmask 1 1 = [] → has_forced_win 1 1 = .ok (false, 1))) :=
  ⟨le_rfl, le_rfl, C7_degenerate 1 1 le_rfl le_rfl⟩

/-- C9: for every m, n ≥ 1, after Board construction the list
`Board.lines` is sorted in non-increasing order of population count:
every adjacent pair satisfies `bit_count earlier ≥ bit_count later`. -/
theorem C9_lines_sorted (m n : Int) (hm : 1 ≤ m) (hn : 1 ≤ n) :
    List.Chain' (fun a b => bit_count b ≤ bit_count a) (Board.lines m n) :=
  (sortDesc_pairwise (enumerate_lines_bitmask m n)).chain'

theorem C9_lines_sorted_witness :
    (1 ≤ (2 : Int)) ∧ (1 ≤ (2 : Int))
    ∧ List.Chain' (fun a b => bit_count b ≤ bit_count a) (Board.lines 2 2) :=
  ⟨by norm_num, by norm_num, C9_lines_sorted 2 2 (by norm_num) (by norm_num)⟩

/-! ### Membership characterizations of the enumeration -/

theorem mem_intRange {a b z : Int} : z ∈ intRange a b ↔ a ≤ z ∧ z < b := by
  unfold intRange
  simp only [List.mem_map, List.mem_range]
  constructor
  · rintro ⟨i, hi, rfl⟩
    have h2 : (i : Int) < b - a := Int.lt_toNat.mp hi
    have h3 : (0 : Int) ≤ (i : Int) := Int.natCast_nonneg i
    omega
  · intro h
    have h1 : ((z - a).toNat : Int) = z - a := Int.toNat_of_nonneg (by omega)
    refine ⟨(z - a).toNat, ?_, ?_⟩
    · rw [Int.lt_toNat, h1]
      omega
    · rw [h1]
      omega

theorem mem_dirs {m n dx dy : Int} :
    (dx, dy) ∈ dirs m n ↔
      (-(n - 1) ≤ dy ∧ dy < n) ∧ (-(m - 1) ≤ dx ∧ dx < m)
        ∧ ¬(dx = 0 ∧ dy = 0) ∧ Int.gcd dx dy = 1
        ∧ ¬(dx < 0 ∨ (dx = 0 ∧ dy < 0)) := by
  unfold dirs
  rw [List.mem_flatMap]
  constructor
  · rintro ⟨dy', hdy', hdx⟩
    rw [List.mem_filterMap] at hdx
    obtain ⟨dx', hdx', hf⟩ := hdx
    by_cases h1 : dx' = 0 ∧ dy' = 0
    · rw [if_pos h1] at hf; cases hf
    · rw [if_neg h1] at hf
      by_cases h2 : Int.gcd dx' dy' ≠ 1
      · rw [if_pos h2] at hf; cases hf
      · rw [if_neg h2] at hf
        by_cases h3 : dx' < 0 ∨ (dx' = 0 ∧ dy' < 0)
        · rw [if_pos h3] at hf; cases hf
        · rw [if_neg h3] at hf
          obtain ⟨rfl, rfl⟩ : dx' = dx ∧ dy' = dy := by
            have := Option.some.inj hf
            exact ⟨congrArg Prod.fst this, congrArg Prod.snd this⟩
          push_neg at h2
          exact ⟨mem_intRange.mp hdy', mem_intRange.mp hdx', h1, h2, h3⟩
  · rintro ⟨hdy, hdx, h1, h2, h3⟩
    refine ⟨dy, mem_intRange.mpr hdy, ?_⟩
    rw [List.mem_filterMap]
    refine ⟨dx, mem_intRange.mpr hdx, ?_⟩
    rw [if_neg h1, if_neg (by simp [h2]), if_neg h3]

theorem mem_line_candidates {m n : Int} {M : Nat} :
    M ∈ line_candidates m n ↔
      ∃ d ∈ dirs m n, ∃ x0, (0 ≤ x0 ∧ x0 < m) ∧ ∃ y0, (0 ≤ y0 ∧ y0 < n)
        ∧ in_bounds m n (x0 - d.1) (y0 - d.2) = false
        ∧ 2 ≤ (walk m n d.1 d.2 (walkFuel m n) x0 y0).2
        ∧ (walk m n d.1 d.2 (walkFuel m n) x0 y0).1 = M := by
  unfold line_candidates
  simp only [List.mem_flatMap, List.mem_filterMap, mem_intRange]
  constructor
  · rintro ⟨d, hd, x0, hx0, y0, hy0, hf⟩
    refine ⟨d, hd, x0, hx0, y0, hy0, ?_⟩
    by_cases h1 : in_bounds m n (x0 - d.1) (y0 - d.2) = true
    · rw [if_pos h1] at hf; cases hf
    · rw [if_neg h1] at hf
      refine ⟨by simpa using h1, ?_⟩
      by_cases h2 : 2 ≤ (walk m n d.1 d.2 (walkFuel m n) x0 y0).2
      · rw [if_pos h2] at hf
        exact ⟨h2, Option.some.inj hf⟩
      · rw [if_neg h2] at hf; cases hf
  · rintro ⟨d, hd, x0, hx0, y0, hy0, hpred, hlen, hmask⟩
    refine ⟨d, hd, x0, hx0, y0, hy0, ?_⟩
    rw [if_neg (by simp [hpred]), if_pos hlen, hmask]

/-! ### Characterization of the walk -/

theorem walk_eq (m n dx dy : Int) :
    ∀ (L fuel : Nat) (x y : Int),
      (∀ k : Nat, k < L → in_bounds m n (x + k * dx) (y + k * dy) = true) →
      in_bounds m n (x + L * dx) (y + L * dy) = false →
      L < fuel →
      (walk m n dx dy fuel x y).2 = L
        ∧ ∀ j : Nat, ((walk m n dx dy fuel x y).1.testBit j = true
            ↔ ∃ k : Nat, k < L ∧ j = xy2id n (x + k * dx) (y + k * dy)) := by
  intro L
  induction L with
  | zero =>
    intro fuel x y _ hout hfuel
    have h0 : in_bounds m n x y = false := by
      have e1 : x + ((0 : Nat) : Int) * dx = x := by push_cast; ring
      have e2 : y + ((0 : Nat) : Int) * dy = y := by push_cast; ring
      rw [e1, e2] at hout
      exact hout
    cases fuel with
    | zero => omega
    | succ fuel =>
      rw [walk, if_neg (by simp [h0])]
      refine ⟨rfl, ?_⟩
      intro j
      simp [Nat.zero_testBit]
  | succ L ih =>
    intro fuel x y hpre hout hfuel
    have h0 : in_bounds m n x y = true := by
      have h00 := hpre 0 (by omega)
      have e1 : x + ((0 : Nat) : Int) * dx = x := by push_cast; ring
      have e2 : y + ((0 : Nat) : Int) * dy = y := by push_cast; ring
      rw [e1, e2] at h00
      exact h00
    cases fuel with
    | zero => omega
    | succ fuel =>
      have hih := ih fuel (x + dx) (y + dy)
        (by
          intro k hk
          have hh := hpre (k + 1) (by omega)
          have e1 : x + ((k + 1 : Nat) : Int) * dx = x + dx + (k : Int) * dx := by
            push_cast; ring
          have e2 : y + ((k + 1 : Nat) : Int) * dy = y + dy + (k : Int) * dy := by
            push_cast; ring
          rw [e1, e2] at hh
          exact hh)
        (by
          have e1 : x + ((L + 1 : Nat) : Int) * dx = x + dx + (L : Int) * dx := by
            push_cast; ring
          have e2 : y + ((L + 1 : Nat) : Int) * dy = y + dy + (L : Int) * dy := by
            push_cast; ring
          rw [e1, e2] at hout
          exact hout)
        (by omega)
      obtain ⟨hlen, hbits⟩ := hih
      rw [walk, if_pos (by simp [h0])]
      simp only []
      constructor
      · simpa using hlen
      · intro j
        rw [Nat.testBit_or, Nat.one_shiftLeft, Nat.testBit_two_pow]
        constructor
        · intro h
          rcases Bool.or_eq_true _ _ |>.mp h with h | h
          · obtain ⟨k, hk, rfl⟩ := (hbits j).mp h
            refine ⟨k + 1, by omega, ?_⟩
            have e1 : x + ((k + 1 : Nat) : Int) * dx = x + dx + (k : Int) * dx := by
              push_cast; ring
            have e2 : y + ((k + 1 : Nat) : Int) * dy = y + dy + (k : Int) * dy := by
              push_cast; ring
            rw [e1, e2]
          · refine ⟨0, by omega, ?_⟩
            have e1 : x + ((0 : Nat) : Int) * dx = x := by push_cast; ring
            have e2 : y + ((0 : Nat) : Int) * dy = y := by push_cast; ring
            rw [e1, e2]
            exact (decide_eq_true_eq.mp h).symm
        · rintro ⟨k, hk, rfl⟩
          apply Bool.or_eq_true _ _ |>.mpr
          cases k with
          | zero =>
            right
            have e1 : x + ((0 : Nat) : Int) * dx = x := by push_cast; ring
            have e2 : y + ((0 : Nat) : Int) * dy = y := by push_cast; ring
            rw [e1, e2]
            simp
          | succ k =>
            left
            apply (hbits _).mpr
            refine ⟨k, by omega, ?_⟩
            have e1 : x + ((k + 1 : Nat) : Int) * dx = x + dx + (k : Int) * dx := by
              push_cast; ring
            have e2 : y + ((k + 1 : Nat) : Int) * dy = y + dy + (k : Int) * dy := by
              push_cast; ring
            rw [e1, e2]

/-! ### Fuel adequacy for canonical directions -/

theorem canonical_of_mem_dirs {m n dx dy : Int} (h : (dx, dy) ∈ dirs m n) :
    0 < dx ∨ (dx = 0 ∧ 0 < dy) := by
  obtain ⟨-, -, h1, -, h3⟩ := mem_dirs.mp h
  push_neg at h3
  by_cases hdx : dx = 0
  · subst hdx
    refine Or.inr ⟨rfl, ?_⟩
    have := h3.2 rfl
    rcases lt_trichotomy 0 dy with h | h | h
    · exact h
    · exact absurd ⟨rfl, h.symm⟩ h1
    · omega
  · exact Or.inl (lt_of_le_of_ne h3.1 (Ne.symm hdx))

theorem exists_out_of_bounds {m n dx dy : Int} (hm : 1 ≤ m) (hn : 1 ≤ n)
    (hcanon : 0 < dx ∨ (dx = 0 ∧ 0 < dy)) (x y : Int) :
    ∃ k0 : Nat, k0 < walkFuel m n
      ∧ in_bounds m n (x + k0 * dx) (y + k0 * dy) = false := by
  cases hx : in_bounds m n x y
  · refine ⟨0, by unfold walkFuel; omega, ?_⟩
    have e1 : x + ((0 : Nat) : Int) * dx = x := by push_cast; ring
    have e2 : y + ((0 : Nat) : Int) * dy = y := by push_cast; ring
    rw [e1, e2]
    exact hx
  · have hb : 0 ≤ x ∧ x < m ∧ 0 ≤ y ∧ y < n := by simpa [in_bounds] using hx
    refine ⟨(m + n).toNat, by unfold walkFuel; omega, ?_⟩
    have hK : (((m + n).toNat : Nat) : Int) = m + n := by omega
    rw [in_bounds, decide_eq_false_iff_not]
    rcases hcanon with hdx | ⟨hdx0, hdy⟩
    · have hge : m ≤ x + ((m + n).toNat : Int) * dx := by
        have h1 : (m + n) * 1 ≤ (m + n) * dx :=
          mul_le_mul_of_nonneg_left (by omega) (by omega)
        rw [hK]
        linarith [hb.1, hb.2.2.2]
      intro hcon
      linarith [hcon.2.1, hge]
    · subst hdx0
      have hge : n ≤ y + ((m + n).toNat : Int) * dy := by
        have h1 : (m + n) * 1 ≤ (m + n) * dy :=
          mul_le_mul_of_nonneg_left (by omega) (by omega)
        rw [hK]
        linarith [hb.2.2.1, hb.1]
      intro hcon
      linarith [hcon.2.2.2, hge]

theorem exists_walk_len {m n dx dy : Int} (hm : 1 ≤ m) (hn : 1 ≤ n)
    (hcanon : 0 < dx ∨ (dx = 0 ∧ 0 < dy)) (x y : Int) :
    ∃ L : Nat, L < walkFuel m n
      ∧ (∀ k : Nat, k < L → in_bounds m n (x + k * dx) (y + k * dy) = true)
      ∧ in_bounds m n (x + L * dx) (y + L * dy) = false := by
  obtain ⟨k0, hk0f, hk0⟩ := exists_out_of_bounds hm hn hcanon x y
  have hex : ∃ k : Nat, in_bounds m n (x + k * dx) (y + k * dy) = false := ⟨k0, hk0⟩
  refine ⟨Nat.find hex, lt_of_le_of_lt (Nat.find_min' hex hk0) hk0f, ?_, Nat.find_spec hex⟩
  intro k hk
  have := Nat.find_min hex hk
  cases h : in_bounds m n (x + k * dx) (y + k * dy)
  · exact absurd h this
  · rfl

/-! ### Rows and columns of the grid -/

theorem toNat_mul_of_nonneg {a b : Int} (ha : 0 ≤ a) (hb : 0 ≤ b) :
    (a * b).toNat = a.toNat * b.toNat := by
  obtain ⟨A, rfl⟩ := Int.eq_ofNat_of_zero_le ha
  obtain ⟨B, rfl⟩ := Int.eq_ofNat_of_zero_le hb
  rw [← Nat.cast_mul, Int.toNat_natCast, Int.toNat_natCast, Int.toNat_natCast]

theorem walk_row (m n : Int) (hm : 1 ≤ m) (hn : 1 ≤ n) (x0 : Int)
    (hx0 : 0 ≤ x0) (hx0m : x0 < m) :
    (walk m n 0 1 (walkFuel m n) x0 0).2 = n.toNat
      ∧ ∀ j, ((walk m n 0 1 (walkFuel m n) x0 0).1.testBit j = true
          ↔ ∃ k : Nat, k < n.toNat ∧ j = (x0 * n + (k : Int)).toNat) := by
  obtain ⟨h1, h2⟩ := walk_eq m n 0 1 n.toNat (walkFuel m n) x0 0
    (by
      intro k hk
      rw [in_bounds, decide_eq_true_eq]
      omega)
    (by
      rw [in_bounds, decide_eq_false_iff_not]
      omega)
    (by unfold walkFuel; omega)
  have he : ∀ k : Nat,
      xy2id n (x0 + (k : Int) * 0) (0 + (k : Int) * 1) = (x0 * n + (k : Int)).toNat := by
    intro k
    unfold xy2id
    congr 1
    ring
  refine ⟨h1, fun j => ?_⟩
  rw [h2 j]
  constructor
  · rintro ⟨k, hk, hj⟩
    exact ⟨k, hk, hj.trans (he k)⟩
  · rintro ⟨k, hk, hj⟩
    exact ⟨k, hk, hj.trans (he k).symm⟩

theorem walk_col (m n : Int) (hm : 1 ≤ m) (hn : 1 ≤ n) (y0 : Int)
    (hy0 : 0 ≤ y0) (hy0n : y0 < n) :
    (walk m n 1 0 (walkFuel m n) 0 y0).2 = m.toNat
      ∧ ∀ j, ((walk m n 1 0 (walkFuel m n) 0 y0).1.testBit j = true
          ↔ ∃ k : Nat, k < m.toNat ∧ j = ((k : Int) * n + y0).toNat) := by
  obtain ⟨h1, h2⟩ := walk_eq m n 1 0 m.toNat (walkFuel m n) 0 y0
    (by
      intro k hk
      rw [in_bounds, decide_eq_true_eq]
      omega)
    (by
      rw [in_bounds, decide_eq_false_iff_not]
      omega)
    (by unfold walkFuel; omega)
  have he : ∀ k : Nat,
      xy2id n (0 + (k : Int) * 1) (y0 + (k : Int) * 0) = ((k : Int) * n + y0).toNat := by
    intro k
    unfold xy2id
    congr 1
    ring
  refine ⟨h1, fun j => ?_⟩
  rw [h2 j]
  constructor
  · rintro ⟨k, hk, hj⟩
    exact ⟨k, hk, hj.trans (he k)⟩
  · rintro ⟨k, hk, hj⟩
    exact ⟨k, hk, hj.trans (he k).symm⟩

/-! ### The 1×n board has exactly one line: the full row -/

theorem mem_dirs_one {n : Int} (hn : 2 ≤ n) {d : Int × Int} :
    d ∈ dirs 1 n ↔ d = (0, 1) := by
  obtain ⟨dx, dy⟩ := d
  rw [mem_dirs]
  constructor
  · rintro ⟨hdy, hdx, h1, h2, h3⟩
    have hdx0 : dx = 0 := by omega
    subst hdx0
    rw [Int.gcd_zero_left] at h2
    push_neg at h3
    rcases Int.natAbs_eq_iff.mp h2 with rfl | rfl
    · rfl
    · have := h3.2 rfl
      omega
  · rintro h
    obtain ⟨rfl, rfl⟩ : dx = 0 ∧ dy = 1 := by
      exact ⟨congrArg Prod.fst h, congrArg Prod.snd h⟩
    refine ⟨⟨by omega, by omega⟩, ⟨by omega, by omega⟩, by simp, by decide, ?_⟩
    rintro (h | ⟨-, h⟩) <;> omega

theorem row_mask_one {n : Int} (hn : 2 ≤ n) :
    (walk 1 n 0 1 (walkFuel 1 n) 0 0).1 = 2 ^ n.toNat - 1
      ∧ (walk 1 n 0 1 (walkFuel 1 n) 0 0).2 = n.toNat := by
  obtain ⟨h1, h2⟩ := walk_row 1 n (by norm_num) (by omega) 0
    (le_refl (0 : Int)) (by norm_num)
  refine ⟨?_, h1⟩
  apply Nat.eq_of_testBit_eq
  intro j
  rw [Nat.testBit_two_pow_sub_one]
  by_cases hj : j < n.toNat
  · rw [decide_eq_true hj]
    apply (h2 j).mpr
    exact ⟨j, hj, by omega⟩
  · rw [decide_eq_false hj]
    cases hb : ((walk 1 n 0 1 (walkFuel 1 n) 0 0).1.testBit j)
    · rfl
    · obtain ⟨k, hk, hjk⟩ := (h2 j).mp hb
      omega

theorem eq_singleton_of {l : List Nat} {v : Nat} (hnd : l.Nodup)
    (hall : ∀ x ∈ l, x = v) (hv : v ∈ l) : l = [v] := by
  cases l with
  | nil => cases hv
  | cons a l =>
    have ha : a = v := hall a (List.mem_cons_self a l)
    subst ha
    cases l with
    | nil => rfl
    | cons b l =>
      have hb : b = a := hall b (by simp)
      subst hb
      rw [List.nodup_cons] at hnd
      exact absurd (List.mem_cons_self b l) hnd.1

theorem enumerate_one_row {n : Int} (hn : 2 ≤ n) :
    enumerate_lines_bitmask 1 n = [2 ^ n.toNat - 1] := by
  obtain ⟨hmask, hlen⟩ := row_mask_one hn
  have hall : ∀ M ∈ enumerate_lines_bitmask 1 n, M = 2 ^ n.toNat - 1 := by
    intro M hM
    obtain ⟨d, hd, x0, hx0, y0, hy0, hpred, hlen2, hmask2⟩ :=
      mem_line_candidates.mp (mem_enumerate_iff.mp hM)
    obtain rfl : d = (0, 1) := (mem_dirs_one hn).mp hd
    obtain rfl : x0 = 0 := by omega
    obtain rfl : y0 = 0 := by
      rw [in_bounds, decide_eq_false_iff_not] at hpred
      omega
    rw [← hmask2, hmask]
  have hv : 2 ^ n.toNat - 1 ∈ enumerate_lines_bitmask 1 n := by
    rw [mem_enumerate_iff, mem_line_candidates]
    refine ⟨(0, 1), (mem_dirs_one hn).mpr rfl, 0, ⟨le_rfl, by norm_num⟩,
      0, ⟨le_rfl, by omega⟩, ?_, ?_, hmask⟩
    · rw [in_bounds, decide_eq_false_iff_not]
      omega
    · rw [hlen]
      omega
  exact eq_singleton_of (enumerate_nodup 1 n) hall hv

/-- C8: for every n ≥ 2, `enumerate_lines_bitmask 1 n` returns exactly one
line, the full row of all n points (the mask with bits 0..n-1 set);
consequently `has_forced_win 1 2` and `has_forced_win 1 3` both report
first-player-wins = true. -/
theorem C8_one_by_n (n : Int) (hn : 2 ≤ n) :
    enumerate_lines_bitmask 1 n = [2 ^ n.toNat - 1]
    ∧ (∃ k, has_forced_win 1 2 = .ok (true, k))
    ∧ (∃ k, has_forced_win 1 3 = .ok (true, k)) :=
  ⟨enumerate_one_row hn, ⟨1, rfl⟩, ⟨1, rfl⟩⟩

theorem C8_one_by_n_witness :
    (2 ≤ (2 : Int))
    ∧ (enumerate_lines_bitmask 1 2 = [2 ^ (2 : Int).toNat - 1]
      ∧ (∃ k, has_forced_win 1 2 = .ok (true, k))
      ∧ (∃ k, has_forced_win 1 3 = .ok (true, k))) :=
  ⟨le_rfl, C8_one_by_n 2 le_rfl⟩

/-! ### The enumerated lines cover every point (C10) -/

/-- The bitwise OR of all masks in `Board.lines`. -/
def linesOr (m n : Int) : Nat :=
  (Board.lines m n).foldr (fun a b => a ||| b) 0

theorem foldr_or_testBit (l : List Nat) (j : Nat) :
    ((l.foldr (fun a b => a ||| b) 0).testBit j = true) ↔ ∃ x ∈ l, x.testBit j = true := by
  induction l with
  | nil => simp [Nat.zero_testBit]
  | cons a l ih =>
    simp only [List.foldr_cons, Nat.testBit_or, Bool.or_eq_true, ih, List.mem_cons]
    constructor
    · rintro (h | ⟨x, hx, hb⟩)
      · exact ⟨a, Or.inl rfl, h⟩
      · exact ⟨x, Or.inr hx, hb⟩
    · rintro ⟨x, (rfl | hx), hb⟩
      · exact Or.inl hb
      · exact Or.inr ⟨x, hx, hb⟩

theorem row_mem_lines {m n : Int} (hm : 1 ≤ m) (hn2 : 2 ≤ n) {x0 : Int}
    (hx0 : 0 ≤ x0) (hx0m : x0 < m) :
    (walk m n 0 1 (walkFuel m n) x0 0).1 ∈ Board.lines m n := by
  rw [mem_lines_iff, mem_enumerate_iff, mem_line_candidates]
  refine ⟨(0, 1), ?_, x0, ⟨hx0, hx0m⟩, 0, ⟨le_rfl, by omega⟩, ?_, ?_, rfl⟩
  · rw [mem_dirs]
    refine ⟨⟨by omega, by omega⟩, ⟨by omega, by omega⟩, by simp, by decide, ?_⟩
    rintro (h | ⟨-, h⟩) <;> omega
  · rw [in_bounds, decide_eq_false_iff_not]
    omega
  · rw [(walk_row m n hm (by omega) x0 hx0 hx0m).1]
    omega

theorem col_mem_lines {m n : Int} (hm2 : 2 ≤ m) (hn : 1 ≤ n) {y0 : Int}
    (hy0 : 0 ≤ y0) (hy0n : y0 < n) :
    (walk m n 1 0 (walkFuel m n) 0 y0).1 ∈ Board.lines m n := by
  rw [mem_lines_iff, mem_enumerate_iff, mem_line_candidates]
  refine ⟨(1, 0), ?_, 0, ⟨le_rfl, by omega⟩, y0, ⟨hy0, hy0n⟩, ?_, ?_, rfl⟩
  · rw [mem_dirs]
    refine ⟨⟨by omega, by omega⟩, ⟨by omega, by omega⟩, by simp, by decide, ?_⟩
    rintro (h | ⟨h, -⟩) <;> omega
  · rw [in_bounds, decide_eq_false_iff_not]
    omega
  · rw [(walk_col m n (by omega) hn y0 hy0 hy0n).1]
    omega

/-- C10: for every m, n ≥ 1 with m·n ≥ 2, the bitwise OR of all the masks
in `Board.lines` equals the full mask — every grid point lies on at least
one enumerated line, so the initial all-present state has a legal move. -/
theorem C10_lines_cover (m n : Int) (hm : 1 ≤ m) (hn : 1 ≤ n) (h2 : 2 ≤ m * n) :
    linesOr m n = Board.full_mask m n := by
  rw [full_mask_eq]
  apply Nat.eq_of_testBit_eq
  intro j
  rw [Nat.testBit_two_pow_sub_one]
  unfold linesOr
  by_cases hj : j < (m * n).toNat
  · rw [decide_eq_true hj]
    apply (foldr_or_testBit _ _).mpr
    have hmnt : (m * n).toNat = m.toNat * n.toNat :=
      toNat_mul_of_nonneg (by omega) (by omega)
    by_cases hn2 : 2 ≤ n
    · -- the row through the point covers it
      have hnt : 0 < n.toNat := by omega
      have hxm : j / n.toNat < m.toNat := by
        rw [Nat.div_lt_iff_lt_mul hnt]
        omega
      have hx0 : (0 : Int) ≤ ((j / n.toNat : Nat) : Int) := Int.natCast_nonneg _
      have hx0m : ((j / n.toNat : Nat) : Int) < m := by omega
      refine ⟨(walk m n 0 1 (walkFuel m n) ((j / n.toNat : Nat) : Int) 0).1,
        row_mem_lines hm hn2 hx0 hx0m, ?_⟩
      apply ((walk_row m n hm hn _ hx0 hx0m).2 j).mpr
      refine ⟨j % n.toNat, Nat.mod_lt j hnt, ?_⟩
      have hn' : ((n.toNat : Nat) : Int) = n := by omega
      have hcast : (((j / n.toNat : Nat) : Int) * n + ((j % n.toNat : Nat) : Int))
          = ((j / n.toNat * n.toNat + j % n.toNat : Nat) : Int) := by
        push_cast [hn']
        ring
      rw [hcast, Int.toNat_natCast]
      exact (Nat.div_add_mod' j n.toNat).symm
    · -- n = 1, so m ≥ 2 and the column through the point covers it
      have hn1 : n = 1 := by omega
      subst hn1
      have hm2 : 2 ≤ m := by omega
      refine ⟨(walk m 1 1 0 (walkFuel m 1) 0 0).1,
        col_mem_lines hm2 hn (le_refl (0 : Int)) (by norm_num), ?_⟩
      apply ((walk_col m 1 (by omega) hn 0 (le_refl (0 : Int)) (by norm_num)).2 j).mpr
      refine ⟨j, by omega, ?_⟩
      have hcast : (((j : Nat) : Int) * 1 + 0) = ((j : Nat) : Int) := by ring
      rw [hcast, Int.toNat_natCast]
  · rw [decide_eq_false hj]
    cases hb : ((Board.lines m n).foldr (fun a b => a ||| b) 0).testBit j
    · rfl
    · obtain ⟨x, hx, hxb⟩ := (foldr_or_testBit _ _).mp hb
      have hlt : x < 2 ^ (m * n).toNat :=
        mem_line_candidates_lt (mem_enumerate_iff.mp (mem_lines_iff.mp hx))
      have : x < 2 ^ j :=
        lt_of_lt_of_le hlt (Nat.pow_le_pow_right (by decide) (by omega))
      rw [Nat.testBit_lt_two_pow this] at hxb
      cases hxb

theorem C10_lines_cover_witness :
    (1 ≤ (2 : Int)) ∧ (1 ≤ (2 : Int)) ∧ (2 ≤ (2 : Int) * 2)
    ∧ linesOr 2 2 = Board.full_mask 2 2 :=
  ⟨by norm_num, by norm_num, by norm_num,
    C10_lines_cover 2 2 (by norm_num) (by norm_num) (by norm_num)⟩

/-! ### Geometry of maximal collinear point-sets (C2) -/

/-- A point `(x, y)` of the m×n grid. -/
def inGrid (m n x y : Int) : Prop :=
  0 ≤ x ∧ x < m ∧ 0 ≤ y ∧ y < n

/-- Three integer points are collinear (vanishing cross product). -/
def collinear (px py qx qy rx ry : Int) : Prop :=
  (qx - px) * (ry - py) = (qy - py) * (rx - px)

theorem in_bounds_iff {m n x y : Int} : in_bounds m n x y = true ↔ inGrid m n x y := by
  rw [in_bounds, decide_eq_true_eq]
  exact Iff.rfl

theorem in_bounds_false_iff {m n x y : Int} :
    in_bounds m n x y = false ↔ ¬ inGrid m n x y := by
  rw [in_bounds, decide_eq_false_iff_not]
  exact Iff.rfl

theorem xy2id_inj {m n x y x' y' : Int} (h : inGrid m n x y) (h' : inGrid m n x' y')
    (hid : xy2id n x y = xy2id n x' y') : x = x' ∧ y = y' := by
  obtain ⟨hx0, hxm, hy0, hyn⟩ := h
  obtain ⟨hx0', hxm', hy0', hyn'⟩ := h'
  have hn0 : (0 : Int) ≤ n := by omega
  have hval : x * n + y = x' * n + y' := by
    have e1 : ((x * n + y).toNat : Int) = x * n + y :=
      Int.toNat_of_nonneg (add_nonneg (mul_nonneg hx0 hn0) hy0)
    have e2 : ((x' * n + y').toNat : Int) = x' * n + y' :=
      Int.toNat_of_nonneg (add_nonneg (mul_nonneg hx0' hn0) hy0')
    rw [← e1, ← e2]
    unfold xy2id at hid
    rw [hid]
  constructor
  · rcases lt_trichotomy x x' with hlt | heq | hgt
    · exfalso
      have h1 : (x + 1) * n ≤ x' * n :=
        mul_le_mul_of_nonneg_right (by omega) hn0
      have h2 : (x + 1) * n = x * n + n := by ring
      omega
    · exact heq
    · exfalso
      have h1 : (x' + 1) * n ≤ x * n :=
        mul_le_mul_of_nonneg_right (by omega) hn0
      have h2 : (x' + 1) * n = x' * n + n := by ring
      omega
  · have hxx : x = x' := by
      rcases lt_trichotomy x x' with hlt | heq | hgt
      · exfalso
        have h1 : (x + 1) * n ≤ x' * n :=
          mul_le_mul_of_nonneg_right (by omega) hn0
        have h2 : (x + 1) * n = x * n + n := by ring
        omega
      · exact heq
      · exfalso
        have h1 : (x' + 1) * n ≤ x * n :=
          mul_le_mul_of_nonneg_right (by omega) hn0
        have h2 : (x' + 1) * n = x' * n + n := by ring
        omega
    subst hxx
    omega

theorem inGrid_convex {m n x0 y0 dx dy t1 t2 t3 : Int} (h12 : t1 ≤ t2) (h23 : t2 ≤ t3)
    (h1 : inGrid m n (x0 + t1 * dx) (y0 + t1 * dy))
    (h3 : inGrid m n (x0 + t3 * dx) (y0 + t3 * dy)) :
    inGrid m n (x0 + t2 * dx) (y0 + t2 * dy) := by
  obtain ⟨h1a, h1b, h1c, h1d⟩ := h1
  obtain ⟨h3a, h3b, h3c, h3d⟩ := h3
  refine ⟨?_, ?_, ?_, ?_⟩
  · rcases le_or_lt 0 dx with hd | hd
    · have := mul_le_mul_of_nonneg_right h12 hd
      linarith
    · have := mul_le_mul_of_nonpos_right h23 (le_of_lt hd)
      linarith
  · rcases le_or_lt 0 dx with hd | hd
    · have := mul_le_mul_of_nonneg_right h23 hd
      linarith
    · have := mul_le_mul_of_nonpos_right h12 (le_of_lt hd)
      linarith
  · rcases le_or_lt 0 dy with hd | hd
    · have := mul_le_mul_of_nonneg_right h12 hd
      linarith
    · have := mul_le_mul_of_nonpos_right h23 (le_of_lt hd)
      linarith
  · rcases le_or_lt 0 dy with hd | hd
    · have := mul_le_mul_of_nonneg_right h23 hd
      linarith
    · have := mul_le_mul_of_nonpos_right h12 (le_of_lt hd)
      linarith

theorem walk_window {m n dx dy x0 y0 : Int} {L : Nat} (h1L : 1 ≤ L)
    (hpre : ∀ k : Nat, k < L → in_bounds m n (x0 + k * dx) (y0 + k * dy) = true)
    (hout : in_bounds m n (x0 + L * dx) (y0 + L * dy) = false)
    (hpred : in_bounds m n (x0 - dx) (y0 - dy) = false) :
    ∀ t : Int, inGrid m n (x0 + t * dx) (y0 + t * dy) ↔ 0 ≤ t ∧ t < (L : Int) := by
  have h0 : inGrid m n (x0 + 0 * dx) (y0 + 0 * dy) := by
    have hh := in_bounds_iff.mp (hpre 0 (by omega))
    have e1 : x0 + ((0 : Nat) : Int) * dx = x0 + 0 * dx := by push_cast; ring
    have e2 : y0 + ((0 : Nat) : Int) * dy = y0 + 0 * dy := by push_cast; ring
    rw [e1, e2] at hh
    exact hh
  intro t
  constructor
  · intro ht
    constructor
    · by_contra hneg
      push_neg at hneg
      have hm1 : inGrid m n (x0 + (-1) * dx) (y0 + (-1) * dy) :=
        inGrid_convex (show t ≤ -1 by omega) (show (-1 : Int) ≤ 0 by omega) ht h0
      apply in_bounds_false_iff.mp hpred
      have e1 : x0 - dx = x0 + (-1) * dx := by ring
      have e2 : y0 - dy = y0 + (-1) * dy := by ring
      rw [e1, e2]
      exact hm1
    · by_contra hge
      push_neg at hge
      have hL' : inGrid m n (x0 + (L : Int) * dx) (y0 + (L : Int) * dy) :=
        inGrid_convex (show (0 : Int) ≤ (L : Int) by omega) hge h0 ht
      exact in_bounds_false_iff.mp hout hL'
  · rintro ⟨ht0, htL⟩
    have hh := in_bounds_iff.mp (hpre t.toNat (by omega))
    have e1 : x0 + ((t.toNat : Nat) : Int) * dx = x0 + t * dx := by
      have : ((t.toNat : Nat) : Int) = t := by omega
      rw [this]
    have e2 : y0 + ((t.toNat : Nat) : Int) * dy = y0 + t * dy := by
      have : ((t.toNat : Nat) : Int) = t := by omega
      rw [this]
    rw [e1, e2] at hh
    exact hh

theorem param_of_collinear {dx dy X Y : Int} (hg : Int.gcd dx dy = 1)
    (h : dx * Y = dy * X) : ∃ t : Int, X = t * dx ∧ Y = t * dy := by
  by_cases hdx : dx = 0
  · subst hdx
    rw [Int.gcd_zero_left] at hg
    have hX : X = 0 := by
      have hdy : dy ≠ 0 := by
        intro h0
        rw [h0] at hg
        simp at hg
      have := h.symm
      simp only [zero_mul] at this
      rcases mul_eq_zero.mp this with h' | h'
      · exact absurd h' hdy
      · exact h'
    rcases Int.natAbs_eq_iff.mp hg with rfl | rfl
    · exact ⟨Y, by omega, by omega⟩
    · exact ⟨-Y, by omega, by omega⟩
  · have hco : IsCoprime dx dy := Int.gcd_eq_one_iff_coprime.mp hg
    have hdvd : dx ∣ X := by
      apply hco.dvd_of_dvd_mul_left
      exact ⟨Y, by linarith [h]⟩
    obtain ⟨t, rfl⟩ := hdvd
    refine ⟨t, by ring, ?_⟩
    have h' : dx * Y = dx * (t * dy) := by linarith [h]
    have := mul_left_cancel₀ hdx h'
    omega

theorem walk_trace {m n dx dy x0 y0 : Int} {L fuel : Nat}
    (hg : Int.gcd dx dy = 1) (h1L : 1 ≤ L) (hLf : L < fuel)
    (hpre : ∀ k : Nat, k < L → in_bounds m n (x0 + k * dx) (y0 + k * dy) = true)
    (hout : in_bounds m n (x0 + L * dx) (y0 + L * dy) = false)
    (hpred : in_bounds m n (x0 - dx) (y0 - dy) = false) :
    ∀ rx ry, inGrid m n rx ry →
      ((walk m n dx dy fuel x0 y0).1.testBit (xy2id n rx ry) = true
        ↔ dx * (ry - y0) = dy * (rx - x0)) := by
  obtain ⟨hlen, hbits⟩ := walk_eq m n dx dy L fuel x0 y0 hpre hout hLf
  intro rx ry hr
  rw [hbits]
  constructor
  · rintro ⟨k, hk, hid⟩
    have hwk : inGrid m n (x0 + k * dx) (y0 + k * dy) :=
      in_bounds_iff.mp (hpre k hk)
    obtain ⟨hx, hy⟩ := xy2id_inj hr hwk hid
    rw [hx, hy]
    ring
  · intro hcol
    obtain ⟨t, htx, hty⟩ := param_of_collinear hg hcol
    have hex : x0 + t * dx = rx := by omega
    have hey : y0 + t * dy = ry := by omega
    have hInB : inGrid m n (x0 + t * dx) (y0 + t * dy) := by
      rw [hex, hey]
      exact hr
    have hwin := (walk_window h1L hpre hout hpred t).mp hInB
    refine ⟨t.toNat, by omega, ?_⟩
    have ht' : ((t.toNat : Nat) : Int) = t := by omega
    have e1 : x0 + ((t.toNat : Nat) : Int) * dx = rx := by rw [ht']; omega
    have e2 : y0 + ((t.toNat : Nat) : Int) * dy = ry := by rw [ht']; omega
    rw [e1, e2]

theorem mem_enumerate_elim {m n : Int} (hm : 1 ≤ m) (hn : 1 ≤ n) {M : Nat}
    (hM : M ∈ enumerate_lines_bitmask m n) :
    ∃ dx dy x0 y0 : Int, ∃ L : Nat,
      Int.gcd dx dy = 1 ∧ ¬(dx = 0 ∧ dy = 0) ∧ 2 ≤ L ∧ L < walkFuel m n
      ∧ (∀ k : Nat, k < L → in_bounds m n (x0 + k * dx) (y0 + k * dy) = true)
      ∧ in_bounds m n (x0 + L * dx) (y0 + L * dy) = false
      ∧ in_bounds m n (x0 - dx) (y0 - dy) = false
      ∧ (walk m n dx dy (walkFuel m n) x0 y0).1 = M := by
  obtain ⟨d, hd, x0, hx0, y0, hy0, hpred, hlen, hmask⟩ :=
    mem_line_candidates.mp (mem_enumerate_iff.mp hM)
  obtain ⟨dx, dy⟩ := d
  dsimp only at hpred hlen hmask
  have hcan := canonical_of_mem_dirs hd
  obtain ⟨-, -, hne00, hgcd, -⟩ := mem_dirs.mp hd
  obtain ⟨L, hLf, hpre, hout⟩ := exists_walk_len hm hn hcan x0 y0
  obtain ⟨hlen', -⟩ := walk_eq m n dx dy L (walkFuel m n) x0 y0 hpre hout hLf
  have hL2 : 2 ≤ L := by rw [hlen'] at hlen; exact hlen
  exact ⟨dx, dy, x0, y0, L, hgcd, hne00, hL2, hLf, hpre, hout, hpred, hmask⟩

theorem enumerate_popcount {m n : Int} (hm : 1 ≤ m) (hn : 1 ≤ n) {M : Nat}
    (hM : M ∈ enumerate_lines_bitmask m n) : 2 ≤ bit_count M := by
  obtain ⟨dx, dy, x0, y0, L, hgcd, hne00, hL2, hLf, hpre, hout, hpred, hmask⟩ :=
    mem_enumerate_elim hm hn hM
  obtain ⟨-, hbits⟩ := walk_eq m n dx dy L (walkFuel m n) x0 y0 hpre hout hLf
  have hMlt : M < 2 ^ (m * n).toNat := mem_line_candidates_lt (mem_enumerate_iff.mp hM)
  rw [bit_count_eq_card ((m * n).toNat) M hMlt]
  have hib0 := hpre 0 (by omega)
  have hib1 := hpre 1 (by omega)
  have hg0 : inGrid m n (x0 + ((0 : Nat) : Int) * dx) (y0 + ((0 : Nat) : Int) * dy) :=
    in_bounds_iff.mp hib0
  have hg1 : inGrid m n (x0 + ((1 : Nat) : Int) * dx) (y0 + ((1 : Nat) : Int) * dy) :=
    in_bounds_iff.mp hib1
  have hbit0 : M.testBit (xy2id n (x0 + ((0 : Nat) : Int) * dx)
      (y0 + ((0 : Nat) : Int) * dy)) = true := by
    rw [← hmask]
    exact (hbits _).mpr ⟨0, by omega, rfl⟩
  have hbit1 : M.testBit (xy2id n (x0 + ((1 : Nat) : Int) * dx)
      (y0 + ((1 : Nat) : Int) * dy)) = true := by
    rw [← hmask]
    exact (hbits _).mpr ⟨1, by omega, rfl⟩
  have hne : xy2id n (x0 + ((0 : Nat) : Int) * dx) (y0 + ((0 : Nat) : Int) * dy)
      ≠ xy2id n (x0 + ((1 : Nat) : Int) * dx) (y0 + ((1 : Nat) : Int) * dy) := by
    intro heq
    obtain ⟨hex, hey⟩ := xy2id_inj hg0 hg1 heq
    apply hne00
    constructor <;> omega
  apply Finset.one_lt_card.mpr
  refine ⟨_, ?_, _, ?_, hne⟩
  · rw [bitIndices, Finset.mem_filter, Finset.mem_range]
    exact ⟨xy2id_lt hib0, hbit0⟩
  · rw [bitIndices, Finset.mem_filter, Finset.mem_range]
    exact ⟨xy2id_lt hib1, hbit1⟩

theorem enumerate_sound {m n : Int} (hm : 1 ≤ m) (hn : 1 ≤ n) {M : Nat}
    (hM : M ∈ enumerate_lines_bitmask m n) :
    M < 2 ^ (m * n).toNat
    ∧ ∃ px py qx qy : Int, inGrid m n px py ∧ inGrid m n qx qy
        ∧ ¬(px = qx ∧ py = qy)
        ∧ ∀ rx ry, inGrid m n rx ry →
            (M.testBit (xy2id n rx ry) = true ↔ collinear px py qx qy rx ry) := by
  obtain ⟨dx, dy, x0, y0, L, hgcd, hne00, hL2, hLf, hpre, hout, hpred, hmask⟩ :=
    mem_enumerate_elim hm hn hM
  have htrace := walk_trace hgcd (by omega) hLf hpre hout hpred
  refine ⟨mem_line_candidates_lt (mem_enumerate_iff.mp hM),
    x0, y0, x0 + dx, y0 + dy, ?_, ?_, ?_, ?_⟩
  · have hh := in_bounds_iff.mp (hpre 0 (by omega))
    have e1 : x0 + ((0 : Nat) : Int) * dx = x0 := by push_cast; ring
    have e2 : y0 + ((0 : Nat) : Int) * dy = y0 := by push_cast; ring
    rw [e1, e2] at hh
    exact hh
  · have hh := in_bounds_iff.mp (hpre 1 (by omega))
    have e1 : x0 + ((1 : Nat) : Int) * dx = x0 + dx := by push_cast; ring
    have e2 : y0 + ((1 : Nat) : Int) * dy = y0 + dy := by push_cast; ring
    rw [e1, e2] at hh
    exact hh
  · rintro ⟨h1, h2⟩
    apply hne00
    constructor <;> omega
  · intro rx ry hr
    rw [← hmask, htrace rx ry hr]
    unfold collinear
    constructor
    · intro h
      linear_combination h
    · intro h
      linear_combination h

theorem line_build (m n px py qx qy dx dy c : Int) (hm : 1 ≤ m) (hn : 1 ≤ n)
    (hp : inGrid m n px py) (hq : inGrid m n qx qy)
    (hc : c ≠ 0) (hux : qx - px = c * dx) (huy : qy - py = c * dy)
    (hg : Int.gcd dx dy = 1)
    (hcan : 0 < dx ∨ (dx = 0 ∧ 0 < dy)) :
    ∃ M ∈ enumerate_lines_bitmask m n,
      ∀ rx ry, inGrid m n rx ry →
        (M.testBit (xy2id n rx ry) = true ↔ collinear px py qx qy rx ry) := by
  have hbdd : ∃ b : Int, ∀ t : Int, inGrid m n (px + t * dx) (py + t * dy) → b ≤ t := by
    refine ⟨-(m + n), ?_⟩
    intro t ht
    by_contra hlt
    push_neg at hlt
    obtain ⟨h1, h2, h3, h4⟩ := ht
    have hts : t ≤ 0 := by omega
    rcases hcan with hdx | ⟨hdx0, hdy⟩
    · have hmul : t * dx ≤ t * 1 := mul_le_mul_of_nonpos_left (by omega) hts
      rw [mul_one] at hmul
      have hpx : px < m := hp.2.1
      linarith
    · subst hdx0
      have hmul : t * dy ≤ t * 1 := mul_le_mul_of_nonpos_left (by omega) hts
      rw [mul_one] at hmul
      have hpy : py < n := hp.2.2.2
      linarith
  have hex : ∃ t : Int, inGrid m n (px + t * dx) (py + t * dy) := by
    refine ⟨0, ?_⟩
    have e1 : px + 0 * dx = px := by ring
    have e2 : py + 0 * dy = py := by ring
    rw [e1, e2]
    exact hp
  obtain ⟨t0, ht0, ht0min⟩ := Int.exists_least_of_bdd hbdd hex
  have hpredf : in_bounds m n ((px + t0 * dx) - dx) ((py + t0 * dy) - dy) = false := by
    rw [in_bounds_false_iff]
    intro hcon
    have e1 : px + t0 * dx - dx = px + (t0 - 1) * dx := by ring
    have e2 : py + t0 * dy - dy = py + (t0 - 1) * dy := by ring
    rw [e1, e2] at hcon
    have := ht0min (t0 - 1) hcon
    omega
  obtain ⟨L, hLf, hpre, hout⟩ := exists_walk_len hm hn hcan (px + t0 * dx) (py + t0 * dy)
  have h1L : 1 ≤ L := by
    by_contra h0
    push_neg at h0
    have hL0 : L = 0 := by omega
    rw [hL0] at hout
    have e1 : (px + t0 * dx) + ((0 : Nat) : Int) * dx = px + t0 * dx := by push_cast; ring
    have e2 : (py + t0 * dy) + ((0 : Nat) : Int) * dy = py + t0 * dy := by push_cast; ring
    rw [e1, e2] at hout
    exact in_bounds_false_iff.mp hout ht0
  have hwin := walk_window h1L hpre hout hpredf
  have hwin' : ∀ t : Int, inGrid m n (px + t * dx) (py + t * dy)
      ↔ t0 ≤ t ∧ t < t0 + L := by
    intro t
    have e1 : px + t * dx = (px + t0 * dx) + (t - t0) * dx := by ring
    have e2 : py + t * dy = (py + t0 * dy) + (t - t0) * dy := by ring
    rw [e1, e2, hwin (t - t0)]
    omega
  have h0w : t0 ≤ 0 ∧ 0 < t0 + L := by
    have hh := (hwin' 0).mp (by
      have e1 : px + 0 * dx = px := by ring
      have e2 : py + 0 * dy = py := by ring
      rw [e1, e2]
      exact hp)
    omega
  have hcw : t0 ≤ c ∧ c < t0 + L := by
    have hh := (hwin' c).mp (by
      have e1 : px + c * dx = qx := by omega
      have e2 : py + c * dy = qy := by omega
      rw [e1, e2]
      exact hq)
    omega
  have hL2 : 2 ≤ L := by omega
  have hlen := (walk_eq m n dx dy L (walkFuel m n)
    (px + t0 * dx) (py + t0 * dy) hpre hout hLf).1
  refine ⟨(walk m n dx dy (walkFuel m n) (px + t0 * dx) (py + t0 * dy)).1, ?_, ?_⟩
  · rw [mem_enumerate_iff, mem_line_candidates]
    refine ⟨(dx, dy), ?_, px + t0 * dx, ⟨ht0.1, ht0.2.1⟩,
      py + t0 * dy, ⟨ht0.2.2.1, ht0.2.2.2⟩, hpredf, ?_, rfl⟩
    · rw [mem_dirs]
      have hcb : 1 ≤ |c| := Int.one_le_abs hc
      have hxa : |qx - px| = |c| * |dx| := by rw [hux, abs_mul]
      have hya : |qy - py| = |c| * |dy| := by rw [huy, abs_mul]
      have hxb : |qx - px| ≤ m - 1 := by
        rw [abs_le]
        obtain ⟨a1, a2, a3, a4⟩ := hp
        obtain ⟨b1, b2, b3, b4⟩ := hq
        omega
      have hyb : |qy - py| ≤ n - 1 := by
        rw [abs_le]
        obtain ⟨a1, a2, a3, a4⟩ := hp
        obtain ⟨b1, b2, b3, b4⟩ := hq
        omega
      have hdxa : |dx| ≤ m - 1 := by
        have h1 : |dx| * 1 ≤ |dx| * |c| := mul_le_mul_of_nonneg_left hcb (abs_nonneg dx)
        rw [mul_one, mul_comm] at h1
        linarith [hxa ▸ hxb]
      have hdya : |dy| ≤ n - 1 := by
        have h1 : |dy| * 1 ≤ |dy| * |c| := mul_le_mul_of_nonneg_left hcb (abs_nonneg dy)
        rw [mul_one, mul_comm] at h1
        linarith [hya ▸ hyb]
      rw [abs_le] at hdxa hdya
      refine ⟨⟨by omega, by omega⟩, ⟨by omega, by omega⟩, ?_, hg, ?_⟩
      · rintro ⟨r1, r2⟩
        rcases hcan with h' | ⟨h1', h2'⟩ <;> omega
      · rintro (h | ⟨h0, h⟩) <;> rcases hcan with h' | ⟨h1', h2'⟩ <;> omega
    · rw [hlen]
      omega
  · intro rx ry hr
    rw [walk_trace hg (by omega) hLf hpre hout hpredf rx ry hr]
    unfold collinear
    rw [hux, huy]
    constructor
    · intro h
      linear_combination c * h
    · intro h
      have h2 : c * (dx * (ry - (py + t0 * dy))) = c * (dy * (rx - (px + t0 * dx))) := by
        linear_combination h
      have h3 := mul_left_cancel₀ hc h2
      linear_combination h3

theorem enumerate_complete {m n px py qx qy : Int} (hm : 1 ≤ m) (hn : 1 ≤ n)
    (hp : inGrid m n px py) (hq : inGrid m n qx qy) (hne : ¬(px = qx ∧ py = qy)) :
    ∃ M ∈ enumerate_lines_bitmask m n,
      ∀ rx ry, inGrid m n rx ry →
        (M.testBit (xy2id n rx ry) = true ↔ collinear px py qx qy rx ry) := by
  have hA : qx - px ≠ 0 ∨ qy - py ≠ 0 := by
    by_contra hcon
    push_neg at hcon
    exact hne ⟨by omega, by omega⟩
  have hg0 : 0 < Int.gcd (qx - px) (qy - py) := Int.gcd_pos_iff.mpr hA
  obtain ⟨u, hu⟩ :=
    (Int.gcd_dvd_left : ((Int.gcd (qx - px) (qy - py) : Nat) : Int) ∣ (qx - px))
  obtain ⟨v, hv⟩ :=
    (Int.gcd_dvd_right : ((Int.gcd (qx - px) (qy - py) : Nat) : Int) ∣ (qy - py))
  have hgne : ((Int.gcd (qx - px) (qy - py) : Nat) : Int) ≠ 0 :=
    Int.natCast_ne_zero.mpr (by omega)
  have huv : Int.gcd u v = 1 := by
    have hmul := Int.gcd_mul_left ((Int.gcd (qx - px) (qy - py) : Nat) : Int) u v
    rw [← hu, ← hv, Int.natAbs_ofNat] at hmul
    refine Nat.eq_of_mul_eq_mul_left hg0 ?_
    rw [← hmul, Nat.mul_one]
  have hune : ¬(u = 0 ∧ v = 0) := by
    rintro ⟨rfl, rfl⟩
    apply hne
    rw [mul_zero] at hu hv
    exact ⟨by omega, by omega⟩
  by_cases hcanon : u < 0 ∨ (u = 0 ∧ v < 0)
  · refine line_build m n px py qx qy (-u) (-v)
      (-((Int.gcd (qx - px) (qy - py) : Nat) : Int)) hm hn hp hq
      (by simpa using hgne) (by linear_combination hu) (by linear_combination hv) ?_ ?_
    · rw [Int.neg_gcd, Int.gcd_neg]
      exact huv
    · rcases hcanon with h | ⟨h1, h2⟩ <;> omega
  · refine line_build m n px py qx qy u v
      ((Int.gcd (qx - px) (qy - py) : Nat) : Int) hm hn hp hq
      hgne hu hv huv ?_
    push_neg at hcanon
    obtain ⟨hc1, hc2⟩ := hcanon
    rcases lt_or_eq_of_le hc1 with h | h
    · exact Or.inl h
    · right
      refine ⟨h.symm, ?_⟩
      have hv2 := hc2 h.symm
      have hvne : v ≠ 0 := by
        intro hv0
        exact hune ⟨h.symm, hv0⟩
      omega

/-- C2: for every m, n ≥ 1, `enumerate_lines_bitmask` returns a duplicate-free
collection of masks, each with population count ≥ 2 and within the board's
bit width, and the collection contains exactly the maximal collinear
point-sets of the grid: every returned mask is, over the grid, exactly the
set of points collinear with two distinct grid points (its full in-bounds
extent, so never a proper sub-segment of another line), and conversely every
pair of distinct grid points has its full collinear point-set in the
collection. In particular the 2×2 grid yields exactly 6 lines of exactly
2 points each. -/
theorem C2_enumeration (m n : Int) (hm : 1 ≤ m) (hn : 1 ≤ n) :
    (enumerate_lines_bitmask m n).Nodup
    ∧ (∀ M ∈ enumerate_lines_bitmask m n, 2 ≤ bit_count M)
    ∧ (∀ M ∈ enumerate_lines_bitmask m n,
        M < 2 ^ (m * n).toNat
          ∧ ∃ px py qx qy : Int, inGrid m n px py ∧ inGrid m n qx qy
              ∧ ¬(px = qx ∧ py = qy)
              ∧ ∀ rx ry, inGrid m n rx ry →
                  (M.testBit (xy2id n rx ry) = true ↔ collinear px py qx qy rx ry))
    ∧ (∀ px py qx qy : Int, inGrid m n px py → inGrid m n qx qy →
        ¬(px = qx ∧ py = qy) →
        ∃ M ∈ enumerate_lines_bitmask m n,
          ∀ rx ry, inGrid m n rx ry →
            (M.testBit (xy2id n rx ry) = true ↔ collinear px py qx qy rx ry))
    ∧ ((enumerate_lines_bitmask 2 2).length = 6
        ∧ ∀ M ∈ enumerate_lines_bitmask 2 2, bit_count M = 2) :=
  ⟨enumerate_nodup m n,
   fun M hM => enumerate_popcount hm hn hM,
   fun M hM => enumerate_sound hm hn hM,
   fun px py qx qy hp hq hne => enumerate_complete hm hn hp hq hne,
   by decide, by decide⟩

theorem C2_enumeration_witness :
    (1 ≤ (2 : Int)) ∧ (1 ≤ (2 : Int))
    ∧ ((enumerate_lines_bitmask 2 2).Nodup
      ∧ (∀ M ∈ enumerate_lines_bitmask 2 2, 2 ≤ bit_count M)
      ∧ (∀ M ∈ enumerate_lines_bitmask 2 2,
          M < 2 ^ ((2 : Int) * 2).toNat
            ∧ ∃ px py qx qy : Int, inGrid 2 2 px py ∧ inGrid 2 2 qx qy
                ∧ ¬(px = qx ∧ py = qy)
                ∧ ∀ rx ry, inGrid 2 2 rx ry →
                    (M.testBit (xy2id 2 rx ry) = true ↔ collinear px py qx qy rx ry))
      ∧ (∀ px py qx qy : Int, inGrid 2 2 px py → inGrid 2 2 qx qy →
          ¬(px = qx ∧ py = qy) →
          ∃ M ∈ enumerate_lines_bitmask 2 2,
            ∀ rx ry, inGrid 2 2 rx ry →
              (M.testBit (xy2id 2 rx ry) = true ↔ collinear px py qx qy rx ry))
      ∧ ((enumerate_lines_bitmask 2 2).length = 6
          ∧ ∀ M ∈ enumerate_lines_bitmask 2 2, bit_count M = 2)) :=
  ⟨by norm_num, by norm_num, C2_enumeration 2 2 (by norm_num) (by norm_num)⟩

